import Mathlib

/-!
Verification of the ASN.1 TLV decoder (`parser.go`)

A shallow embedding of `Parse` / `parseContent` and of the helpers they call.

Modelling conventions.

* A Go `[]byte` buffer is a `Buffer`: the octets of its backing array from the start of
  the slice up to its capacity, and its length. `octets[i]` panics when `i` is not below
  the length, `octets[lo:hi]` when `hi` is above the capacity or below `lo`. A slice that
  the decoder takes out of the buffer is only read within its own length, so it is kept
  as the list of its octets (`Bytes`, `ContentBytes`).
* Go `int` values that occur here are offsets, lengths and bit fields of an octet; they
  are never negative and far below the machine word, so they are natural numbers
  (a negative start offset panics at the first read and is outside the model).
* A run-time panic (index or slice out of range, the `panic` calls of the name tables)
  is the outcome `Run.fault`.
* `Parse` and the child loop of `parseContent` call each other; the embedding threads a
  fuel counter through them (`ParseF`, `parseContentF`, `seqLoopF`) and `Parse` supplies
  `2 * len(octets) + 1`, which is shown to be enough.
* A Go `error` is `Option String` (`none` is `nil`, `some m` carries the message), a
  `*Encoding` is `Option Encoding` and the `interface{}` field `Content` is the type
  `Content` with its three possible dynamic values.
-/

namespace Asn1

/-! ## Data model -/

/-- An octet (Go `byte`). -/
abbrev Byte := Fin 256

/-- Outcome of running a piece of Go code: a run-time panic, exhaustion of the fuel of
the embedding, or a normal return. -/
inductive Run (α : Type) where
  | fault
  | outOfFuel
  | ret (a : α)
  deriving Repr

/-- The record `Encoding` of `parser.go`, with the type of the field `Content` left open. -/
structure EncodingOf (C : Type) where
  Offset : Nat
  Bytes : List Byte
  Class : Nat
  ClassName : String
  PC : Nat
  PCName : String
  Tag : Nat
  TagName : String
  Length : Nat
  IsShortFormLength : Bool
  ContentBytes : List Byte
  Content : C
  deriving Repr

/-- The dynamic values the field `Content interface{}` takes: `nil`, a `string`, or a
`[]*Encoding`. -/
inductive Content where
  | nil
  | str (s : String)
  | children (cs : List (Option (EncodingOf Content)))

/-- The record `Encoding` of `parser.go`. -/
abbrev Encoding := EncodingOf Content

/-- What `Parse` returns: `(*Encoding, int, error)`. -/
abbrev ParseResult := Run (Option Encoding × Nat × Option String)

/-- What `parseContent` returns: `(interface{}, error)`. -/
abbrev ContentResult := Run (Content × Option String)

/-! ## Go primitives -/

/-- A Go `[]byte`: `data` holds the octets of the backing array from the start of the
slice up to its capacity (so `cap(b)` is `data.length`), `len` is `len(b)`. -/
structure Buffer where
  data : List Byte
  len : Nat
  valid : len ≤ data.length

/-- A buffer whose capacity is its length, such as the value of a composite literal
`[]byte{...}`. -/
def Buffer.ofList (l : List Byte) : Buffer :=
  ⟨l, l.length, Nat.le_refl _⟩

/-- Go `octets[i]`; `none` is the index-out-of-range panic (`i` not below `len(octets)`). -/
def index (octets : Buffer) (i : Nat) : Option Byte :=
  if i < octets.len then octets.data[i]? else none

/-- Go `octets[lo:hi]`, as the list of the octets of the resulting slice; `none` is the
slice-bounds-out-of-range panic (`hi` above `cap(octets)`, or `lo` above `hi`). -/
def slice (octets : Buffer) (lo hi : Nat) : Option (List Byte) :=
  if lo ≤ hi ∧ hi ≤ octets.data.length then some ((octets.data.drop lo).take (hi - lo))
  else none

/-- Go `fmt.Sprintf("%d", n)` for a non-negative integer. -/
def fmtD (n : Nat) : String :=
  Nat.repr n

/-- Go `fmt.Sprintf("%d", n)` for a signed integer. -/
def fmtDInt (n : Int) : String :=
  match n with
  | Int.ofNat m => Nat.repr m
  | Int.negSucc m => "-" ++ Nat.repr (m + 1)

/-- Go `fmt.Sprintf("%08b", n)`: the binary digits of `n`, padded on the left with `0`
to a width of eight. -/
def fmt08b (n : Nat) : String :=
  let digits := Nat.toDigits 2 n
  String.mk (List.replicate (8 - digits.length) '0' ++ digits)

/-- Go `strings.Join(parts, sep)`. -/
def stringsJoin (parts : List String) (sep : String) : String :=
  sep.intercalate parts

/-! ## `strconv.ParseInt` (Go standard library) -/

/-- The `Err` field of a `*strconv.NumError`. -/
inductive NumError where
  | errSyntax
  | errRange
  | errBase
  | errBitSize
  deriving DecidableEq, Repr

/-- Value of a digit character in `strconv.ParseUint` (`0-9`, then letters of either
case from 10 upwards). -/
def digitVal (c : Char) : Option Nat :=
  if '0'.toNat ≤ c.toNat ∧ c.toNat ≤ '9'.toNat then some (c.toNat - '0'.toNat)
  else if 'a'.toNat ≤ c.toNat ∧ c.toNat ≤ 'z'.toNat then some (c.toNat - 'a'.toNat + 10)
  else if 'A'.toNat ≤ c.toNat ∧ c.toNat ≤ 'Z'.toNat then some (c.toNat - 'A'.toNat + 10)
  else none

/-- The digit loop of `strconv.ParseUint`. -/
def parseDigits (base maxVal : Nat) : List Char → Nat → Nat × Option NumError
  | [], n => (n, none)
  | c :: cs, n =>
    match digitVal c with
    | none => (0, some .errSyntax)
    | some d =>
      if d ≥ base then (0, some .errSyntax)
      else if n * base + d > maxVal then (maxVal, some .errRange)
      else parseDigits base maxVal cs (n * base + d)

/-- Go `strconv.ParseUint(s, base, bitSize)`: a base outside `0, 2..36` is rejected with
the value `0` before any digit is read. For base 0 the prefixes `0x` and `0` select the
base (the `0b`, `0o` prefixes and digit separators of later Go releases are left out; the
decoder only ever passes base 128). -/
def strconvParseUint (s : List Char) (base bitSize : Nat) : Nat × Option NumError :=
  if s = [] then (0, some .errSyntax)
  else
    let sel : Option (Nat × List Char) :=
      if 2 ≤ base ∧ base ≤ 36 then some (base, s)
      else if base = 0 then
        match s with
        | '0' :: 'x' :: rest => if rest = [] then none else some (16, rest)
        | '0' :: 'X' :: rest => if rest = [] then none else some (16, rest)
        | '0' :: rest => some (8, rest)
        | _ => some (10, s)
      else none
    if ¬ (base = 0 ∨ (2 ≤ base ∧ base ≤ 36)) then (0, some .errBase)
    else
      match sel with
      | none => (0, some .errSyntax)
      | some (b, digits) =>
        if bitSize > 64 then (0, some .errBitSize)
        else
          let bits := if bitSize = 0 then 64 else bitSize
          parseDigits b (2 ^ bits - 1) digits 0

/-- Go `strconv.ParseInt(s, base, bitSize)`. -/
def strconvParseInt (s : String) (base bitSize : Nat) : Int × Option NumError :=
  match s.data with
  | [] => (0, some .errSyntax)
  | c :: cs =>
    let neg := c = '-'
    let body := if c = '+' ∨ c = '-' then cs else c :: cs
    match strconvParseUint body base bitSize with
    | (un, err) =>
      if err ≠ none ∧ err ≠ some .errRange then (0, err)
      else
        let bits := if bitSize = 0 then 64 else bitSize
        let cutoff := 2 ^ (bits - 1)
        if ¬ neg ∧ un ≥ cutoff then (Int.ofNat (cutoff - 1), some .errRange)
        else if neg ∧ un > cutoff then (- Int.ofNat cutoff, some .errRange)
        else (if neg then - Int.ofNat un else Int.ofNat un, none)

/-! ## Name tables -/

/-- The table `classNames` of `toClassName`. -/
def classNames : List String :=
  ["universal", "application", "context-specific", "private"]

/-- Go `toClassName`; `none` is its `panic`. -/
def toClassName (cls : Nat) : Option String :=
  if cls ≥ classNames.length then none else classNames.get? cls

/-- The table `pcNamaes` of `toPCName`. -/
def pcNamaes : List String :=
  ["Primitive (P)", "Constructed (C)"]

/-- Go `toPCName`; `none` is its `panic`. -/
def toPCName (pc : Nat) : Option String :=
  if pc ≥ pcNamaes.length then none else pcNamaes.get? pc

/-- The table `tagNames` of `toUniversalTagName`. -/
def tagNames : List String :=
  ["End-of-Content (EOC)", "BOOLEAN", "INTEGER", "BIT STRING", "OCTET STRING", "NULL",
   "OBJECT IDENTIFIER", "Object Descriptor", "EXTERNAL", "REAL (float)", "ENUMERATED",
   "EMBEDDED PDV", "UTF8String", "RELATIVE-OID", "Reserved (14)", "Reserved (15)",
   "SEQUENCE and SEQUENCE OF", "SET and SET OF", "NumericString", "PrintableString",
   "T61String", "VideotexString", "IA5String", "UTCTime", "GeneralizedTime",
   "GraphicString", "VisibleString", "GeneralString", "UniversalString",
   "CHARACTER STRING", "BMPString"]

/-- Go `toUniversalTagName`. -/
def toUniversalTagName (tag : Nat) : String :=
  if tag ≥ tagNames.length then "<unknown universal tag " ++ fmtD tag ++ ">"
  else tagNames.getD tag ""

/-! ## The decoder -/

/-- The message built by the two `fmt.Errorf` calls of `Parse`: five verbs are given six
operands, so `fmt` appends the sixth as `%!(EXTRA string=...)`. -/
def lengthError (what : String) (idOctet firstLengthOctet : Byte) (cls : Nat)
    (className : String) (tag : Nat) (tagName : String) : String :=
  what ++ " [identity:" ++ fmt08b idOctet.val ++ " length:" ++ fmt08b firstLengthOctet.val
    ++ " class:" ++ fmtD cls ++ "(" ++ className ++ ") tag:" ++ fmtD tag ++ "]"
    ++ "%!(EXTRA string=" ++ tagName ++ ")"

/-- One component of the object-identifier text, as computed in the loop body of
`case 6`: `num, _ := strconv.ParseInt(fmt.Sprintf("%d", int(n)), 128, 8)` followed by
`fmt.Sprintf("%d", num)`. -/
def oidComponent (n : Byte) : String :=
  fmtDInt (strconvParseInt (fmtD n.val) 128 8).1

/-- The `case 6` branch of `parseContent`. -/
def parseOid (octets : Buffer) (offset length : Nat) : ContentResult :=
  match slice octets offset (offset + length) with
  | none => .fault
  | some content => .ret (.str (stringsJoin (content.map oidComponent) "."), none)

/-- Go `bitstring[0 : len(bitstring)-paddingLength]`; `none` is the slice panic. -/
def trimPadding (bitstring : String) (paddingLength : Nat) : Option String :=
  if paddingLength ≤ bitstring.data.length then
    some (String.mk (bitstring.data.take (bitstring.data.length - paddingLength)))
  else none

/-- The accumulation loop of `case 3`: `bitstring = fmt.Sprintf("%s%08b", bitstring, n)`
for each octet. -/
def expandBits (content : List Byte) : String :=
  content.foldl (fun bitstring n => bitstring ++ fmt08b n.val) ""

/-- The `case 3` branch of `parseContent`. -/
def parseBitString (octets : Buffer) (offset length : Nat) : ContentResult :=
  match index octets offset with
  | none => .fault
  | some padding =>
    let paddingLength := padding.val
    match slice octets (offset + 1) (offset + length) with
    | none => .fault
    | some content =>
      match trimPadding (expandBits content) paddingLength with
      | none => .fault
      | some value => .ret (.str value, none)

mutual

/-- Go `Parse(octets, startOffset)` with a fuel counter. -/
def ParseF : Nat → Buffer → Nat → ParseResult
  | 0, _, _ => .outOfFuel
  | fuel + 1, octets, startOffset =>
    let offset := startOffset
    match index octets offset with
    | none => .fault
    | some idOctet =>
      let cls := idOctet.val >>> 6
      let pc := (idOctet.val >>> 5) &&& 1
      let tag := idOctet.val &&& 0x1F
      let tagName := toUniversalTagName tag
      let offset := offset + 1
      match index octets offset with
      | none => .fault
      | some firstLengthOctet =>
        let isLengthShortForm := (firstLengthOctet.val &&& 0x80) == 0
        let contentLength := firstLengthOctet.val &&& 0x7F
        if !isLengthShortForm && contentLength == 0 then
          match toClassName cls with
          | none => .fault
          | some className =>
            .ret (none, offset, some (lengthError "indefinite length is not supported"
              idOctet firstLengthOctet cls className tag tagName))
        else if !isLengthShortForm then
          match toClassName cls with
          | none => .fault
          | some className =>
            .ret (none, offset, some (lengthError "definite long length is not supported"
              idOctet firstLengthOctet cls className tag tagName))
        else
          let offset := offset + 1
          match slice octets startOffset (offset + contentLength) with
          | none => .fault
          | some bytes =>
            match toClassName cls with
            | none => .fault
            | some className =>
              match toPCName pc with
              | none => .fault
              | some pcName =>
                match slice octets offset (offset + contentLength) with
                | none => .fault
                | some contentBytes =>
                  let encoding : Encoding :=
                    { Offset := startOffset
                      Bytes := bytes
                      Class := cls
                      ClassName := className
                      PC := pc
                      PCName := pcName
                      Tag := tag
                      TagName := tagName
                      Length := contentLength
                      IsShortFormLength := isLengthShortForm
                      ContentBytes := contentBytes
                      Content := .nil }
                  match parseContentF fuel tag octets offset contentLength with
                  | .fault => .fault
                  | .outOfFuel => .outOfFuel
                  | .ret (content, err) =>
                    .ret (some { encoding with Content := content }, offset + contentLength, err)
termination_by structural fuel => fuel

/-- Go `parseContent(tag, octets, offset, length)` with a fuel counter. -/
def parseContentF : Nat → Nat → Buffer → Nat → Nat → ContentResult
  | 0, 16, _, _, _ => .outOfFuel
  | fuel + 1, 16, octets, offset, length => seqLoopF fuel octets length offset []
  | _, 6, octets, offset, length => parseOid octets offset length
  | _, 3, octets, offset, length => parseBitString octets offset length
  | _, _, _, _, _ => .ret (.str "<unsupported representation>", none)
termination_by structural fuel => fuel

/-- The `for` loop of `case 16` of `parseContent`, entered with the cursor `parseOffset`
and the children decoded so far. -/
def seqLoopF : Nat → Buffer → Nat → Nat → List (Option Encoding) → ContentResult
  | 0, _, _, _, _ => .outOfFuel
  | fuel + 1, octets, length, parseOffset, children =>
    match ParseF fuel octets parseOffset with
    | .fault => .fault
    | .outOfFuel => .outOfFuel
    | .ret (child, parseOffset, err) =>
      match err with
      | some e => .ret (.nil, some e)
      | none =>
        let children := children ++ [child]
        if parseOffset ≥ length then .ret (.children children, none)
        else seqLoopF fuel octets length parseOffset children
termination_by structural fuel => fuel

end

/-- Go `Parse(octets, startOffset)`. -/
def Parse (octets : Buffer) (startOffset : Nat) : ParseResult :=
  ParseF (2 * octets.len + 1) octets startOffset



/-- Go `parseContent(tag, octets, offset, length)`. -/
def parseContent (tag : Nat) (octets : Buffer) (offset length : Nat) : ContentResult :=
  parseContentF (2 * octets.len + 3) tag octets offset length

/-- The `for` loop of `case 16` of `parseContent`, entered with the cursor `parseOffset`
and the children decoded so far. -/
def seqLoop (octets : Buffer) (length parseOffset : Nat)
    (children : List (Option Encoding)) : ContentResult :=
  seqLoopF (2 * octets.len + 2) octets length parseOffset children

/-- The record `Parse` builds for a short-form unit whose identifier octet is `idOctet`
and whose length octet is `lenOctet`, before `Content` is filled in. -/
def header (octets : Buffer) (startOffset : Nat) (idOctet lenOctet : Byte)
    (content : Content) : Encoding :=
  { Offset := startOffset
    Bytes := (octets.data.drop startOffset).take (2 + lenOctet.val)
    Class := idOctet.val / 64
    ClassName := classNames.getD (idOctet.val / 64) ""
    PC := idOctet.val / 32 % 2
    PCName := pcNamaes.getD (idOctet.val / 32 % 2) ""
    Tag := idOctet.val % 32
    TagName := toUniversalTagName (idOctet.val % 32)
    Length := lenOctet.val
    IsShortFormLength := true
    ContentBytes := (octets.data.drop (startOffset + 2)).take lenOctet.val
    Content := content }

/-! ## Notions used to state the properties -/

/-- A buffer whose capacity exceeds its length: the octets `04 03` with six zero octets
of the backing array behind them, as `b[:2]` of an eight-octet `b`. -/
def prefixBuffer : Buffer :=
  ⟨[0x04, 0x03, 0x00, 0x00, 0x00, 0x00, 0x00, 0x00], 2, by decide⟩

/-- Concatenation, in list order, of the `Bytes` of the children of a `[]*Encoding`. -/
def childrenBytes (cs : List (Option Encoding)) : List Byte :=
  cs.flatMap (fun c => match c with
    | some e => e.Bytes
    | none => [])

/-- The states the child loop of a SEQUENCE passes through: `SeqReach octets length start
p cs` says that the loop entered at cursor `start` arrives at the top of an iteration
with cursor `p` after having decoded the children `cs`. -/
inductive SeqReach (octets : Buffer) (length start : Nat) :
    Nat → List (Option Encoding) → Prop where
  | entry : SeqReach octets length start start []
  | next (p : Nat) (cs : List (Option Encoding)) (child : Option Encoding) (q : Nat) :
      SeqReach octets length start p cs →
      Parse octets p = .ret (child, q, none) → q < length →
      SeqReach octets length start q (cs ++ [child])

/-- The cursor of the child loop after the children `cs` have been decoded, the loop
having been entered at `start`: the end of the last child. -/
def cursorAfter (start : Nat) (cs : List Encoding) : Nat :=
  cs.foldl (fun _ c => c.Offset + c.Bytes.length) start

/-- The children `cs` lie one behind the other from `start` on: the first has `Offset`
`start` and each later one has the `Offset` at which the `Bytes` of the one before end. -/
def Contiguous : Nat → List Encoding → Prop
  | _, [] => True
  | start, c :: cs => c.Offset = start ∧ Contiguous (c.Offset + c.Bytes.length) cs

/-- The nodes that rendering and the name tables accept: `Content` is a string or a
list of non-nil children that are accepted in turn, `Class` is at most 3, `PC` at
most 1, `IsShortFormLength` holds and `Length` is at most 127. -/
inductive WellFormed : Encoding → Prop where
  | leaf (e : Encoding) (s : String) : e.Content = .str s → e.Class ≤ 3 → e.PC ≤ 1 →
      e.IsShortFormLength = true → e.Length ≤ 127 → WellFormed e
  | node (e : Encoding) (cs : List (Option Encoding)) : e.Content = .children cs →
      e.Class ≤ 3 → e.PC ≤ 1 → e.IsShortFormLength = true → e.Length ≤ 127 →
      (∀ c ∈ cs, c ≠ none) → (∀ c, some c ∈ cs → WellFormed c) → WellFormed e

/-- The nodes of the tree below `root`: `root` itself and, for every node whose
`Content` is a child list, the non-nil children in it. -/
inductive InTree (root : Encoding) : Encoding → Prop where
  | root : InTree root root
  | child (n : Encoding) (cs : List (Option Encoding)) (c : Encoding) :
      InTree root n → n.Content = .children cs → some c ∈ cs → InTree root c

/-! ## Rendering (`Encoding.toString`) -/

/-- Go `fmt.Sprintf("%t", b)`. -/
def fmtT (b : Bool) : String :=
  if b then "true" else "false"

/-- The `header` string of `toString`. -/
def headerLine (e : Encoding) : String :=
  "offset=" ++ fmtD e.Offset ++ " class:" ++ fmtD e.Class ++ "(" ++ e.ClassName ++ ") pc:"
    ++ fmtD e.PC ++ "(" ++ e.PCName ++ ") tag:" ++ fmtD e.Tag ++ "(" ++ e.TagName
    ++ ") length:" ++ fmtD e.Length ++ "(short:" ++ fmtT e.IsShortFormLength ++ ")"

mutual

/-- The body of Go `(e *Encoding).toString(depth)` for a non-nil `e`; `none` is a panic
(the `default` branch of the type switch, or a nil child). -/
def renderEncoding : EncodingOf Content → Nat → Option String
  | ⟨off, bytes, cls, cn, pc, pcn, tag, tn, len, sf, cb, content⟩, depth =>
    let indent := String.mk (List.replicate depth ' ')
    let header := headerLine ⟨off, bytes, cls, cn, pc, pcn, tag, tn, len, sf, cb, content⟩
    match renderContent content depth with
    | none => none
    | some contentStr => some (indent ++ header ++ " " ++ contentStr)

/-- The type switch of `toString` on `e.Content`, computing `contentStr`. -/
def renderContent : Content → Nat → Option String
  | .children content, depth => renderChildren content depth ""
  | .str content, _ => some content
  | .nil, _ => none

/-- The loop `for _, enc := range content` of `toString`, with `contentStr` so far. -/
def renderChildren : List (Option (EncodingOf Content)) → Nat → String → Option String
  | [], _, contentStr => some contentStr
  | enc :: rest, depth, contentStr =>
    match Encoding.toString enc (depth + 1) with
    | none => none
    | some s => renderChildren rest depth (contentStr ++ "\n" ++ s)

/-- Go `(e *Encoding).toString(depth)`; a nil receiver panics at `e.Offset`. -/
def Encoding.toString : Option (EncodingOf Content) → Nat → Option String
  | none, _ => none
  | some e, depth => renderEncoding e depth

end

/-- Go `(e *Encoding).String()`. -/
def Encoding.String (e : Option Encoding) : Option String :=
  Encoding.toString e 0

/-! ## Bit fields of an octet -/


set_option maxRecDepth 100000 in
theorem class_eq_div (b : Byte) : b.val >>> 6 = b.val / 64 := by
  revert b; decide

set_option maxRecDepth 100000 in
theorem pc_eq_div_mod (b : Byte) : (b.val >>> 5) &&& 1 = b.val / 32 % 2 := by
  revert b; decide

set_option maxRecDepth 100000 in
theorem tag_eq_mod (b : Byte) : b.val &&& 0x1F = b.val % 32 := by
  revert b; decide

set_option maxRecDepth 100000 in
theorem length_eq_mod (b : Byte) : b.val &&& 0x7F = b.val % 128 := by
  revert b; decide

set_option maxRecDepth 100000 in
theorem shortForm_iff (b : Byte) : ((b.val &&& 0x80) == 0) = decide (b.val < 128) := by
  revert b; decide

set_option maxRecDepth 100000 in
theorem toClassName_class (b : Byte) :
    toClassName (b.val / 64) = some (classNames.getD (b.val / 64) "") := by
  revert b; decide

set_option maxRecDepth 100000 in
theorem toPCName_pc (b : Byte) :
    toPCName (b.val / 32 % 2) = some (pcNamaes.getD (b.val / 32 % 2) "") := by
  revert b; decide

set_option maxRecDepth 100000 in
theorem fmt08b_data (b : Byte) :
    (fmt08b b.val).data
      = (List.range 8).map (fun i => if b.val.testBit (7 - i) then '1' else '0') := by
  revert b; decide


/-! ## Unfolding `Parse` -/

theorem ParseF_fault_id (fuel : Nat) (octets : Buffer) (o : Nat)
    (h : index octets o = none) : ParseF (fuel + 1) octets o = .fault := by
  simp [ParseF, h]

theorem ParseF_fault_len (fuel : Nat) (octets : Buffer) (o : Nat)
    (h : index octets (o + 1) = none) : ParseF (fuel + 1) octets o = .fault := by
  unfold ParseF
  simp only [h]
  split <;> rfl

theorem ParseF_indefinite (fuel : Nat) (octets : Buffer) (o : Nat) (idOctet lenOctet : Byte)
    (h0 : index octets o = some idOctet) (h1 : index octets (o + 1) = some lenOctet)
    (hl : lenOctet.val = 128) :
    ParseF (fuel + 1) octets o = .ret (none, o + 1,
      some (lengthError "indefinite length is not supported" idOctet lenOctet
        (idOctet.val / 64) (classNames.getD (idOctet.val / 64) "") (idOctet.val % 32)
        (toUniversalTagName (idOctet.val % 32)))) := by
  unfold ParseF
  have h2 : ¬ lenOctet.val < 128 := by omega
  have h3 : lenOctet.val % 128 = 0 := by omega
  simp only [h0, h1, shortForm_iff, length_eq_mod, class_eq_div, tag_eq_mod,
    toClassName_class, h2, h3]
  rfl

theorem ParseF_long (fuel : Nat) (octets : Buffer) (o : Nat) (idOctet lenOctet : Byte)
    (h0 : index octets o = some idOctet) (h1 : index octets (o + 1) = some lenOctet)
    (hl : 128 < lenOctet.val) :
    ParseF (fuel + 1) octets o = .ret (none, o + 1,
      some (lengthError "definite long length is not supported" idOctet lenOctet
        (idOctet.val / 64) (classNames.getD (idOctet.val / 64) "") (idOctet.val % 32)
        (toUniversalTagName (idOctet.val % 32)))) := by
  unfold ParseF
  have h2 : ¬ lenOctet.val < 128 := by omega
  have h3 : ¬ lenOctet.val % 128 = 0 := by omega
  simp only [h0, h1, shortForm_iff, length_eq_mod, class_eq_div, tag_eq_mod,
    toClassName_class, h2]
  simp [h3]

theorem ParseF_short_fault (fuel : Nat) (octets : Buffer) (o : Nat) (idOctet lenOctet : Byte)
    (h0 : index octets o = some idOctet) (h1 : index octets (o + 1) = some lenOctet)
    (hl : lenOctet.val < 128) (hb : octets.data.length < o + 2 + lenOctet.val) :
    ParseF (fuel + 1) octets o = .fault := by
  unfold ParseF
  have h4 : lenOctet.val % 128 = lenOctet.val := Nat.mod_eq_of_lt hl
  have h5 : ¬ (o + 1 + 1 + lenOctet.val ≤ octets.data.length) := by omega
  simp [h0, h1, shortForm_iff, length_eq_mod, hl, h4, slice, h5]

theorem ParseF_short (fuel : Nat) (octets : Buffer) (o : Nat) (idOctet lenOctet : Byte)
    (h0 : index octets o = some idOctet) (h1 : index octets (o + 1) = some lenOctet)
    (hl : lenOctet.val < 128) (hb : o + 2 + lenOctet.val ≤ octets.data.length) :
    ParseF (fuel + 1) octets o =
      match parseContentF fuel (idOctet.val % 32) octets (o + 2) lenOctet.val with
      | .fault => .fault
      | .outOfFuel => .outOfFuel
      | .ret (content, err) =>
        .ret (some (header octets o idOctet lenOctet content), o + 2 + lenOctet.val, err) := by
  unfold ParseF
  have h4 : lenOctet.val % 128 = lenOctet.val := Nat.mod_eq_of_lt hl
  have h5 : o + 1 + 1 + lenOctet.val ≤ octets.data.length := by omega
  have h6 : o ≤ o + 1 + 1 + lenOctet.val := by omega
  have h7 : o + 1 + 1 + lenOctet.val - o = 2 + lenOctet.val := by omega
  have h8 : o + 1 + 1 + lenOctet.val - (o + 1 + 1) = lenOctet.val := by omega
  have h9 : o + 1 + 1 ≤ o + 1 + 1 + lenOctet.val := by omega
  simp only [h0, h1, shortForm_iff, length_eq_mod, hl, h4, slice, h5, h6, h7, h8, h9,
    toClassName_class, toPCName_pc, class_eq_div, pc_eq_div_mod, tag_eq_mod]
  simp only [header, decide_True, Bool.not_true, Bool.false_and, and_self, if_true,
    Bool.false_eq_true, if_false]


/-! ## Unfolding `parseContent` and the child loop -/

theorem parseContentF_seq_zero (octets : Buffer) (offset length : Nat) :
    parseContentF 0 16 octets offset length = .outOfFuel := by
  simp [parseContentF]

theorem parseContentF_seq_succ (fuel : Nat) (octets : Buffer) (offset length : Nat) :
    parseContentF (fuel + 1) 16 octets offset length = seqLoopF fuel octets length offset [] := by
  simp [parseContentF]

theorem parseContentF_oid (fuel : Nat) (octets : Buffer) (offset length : Nat) :
    parseContentF fuel 6 octets offset length = parseOid octets offset length := by
  cases fuel <;> simp [parseContentF]

theorem parseContentF_bits (fuel : Nat) (octets : Buffer) (offset length : Nat) :
    parseContentF fuel 3 octets offset length = parseBitString octets offset length := by
  cases fuel <;> simp [parseContentF]

theorem parseContentF_other (fuel tag : Nat) (octets : Buffer) (offset length : Nat)
    (h16 : tag ≠ 16) (h6 : tag ≠ 6) (h3 : tag ≠ 3) :
    parseContentF fuel tag octets offset length
      = .ret (.str "<unsupported representation>", none) := by
  unfold parseContentF
  split <;> first | rfl | contradiction

theorem seqLoopF_succ (fuel : Nat) (octets : Buffer) (length parseOffset : Nat)
    (children : List (Option Encoding)) :
    seqLoopF (fuel + 1) octets length parseOffset children =
      match ParseF fuel octets parseOffset with
      | .fault => .fault
      | .outOfFuel => .outOfFuel
      | .ret (_, _, some e) => .ret (.nil, some e)
      | .ret (child, next, none) =>
        if next ≥ length then .ret (.children (children ++ [child]), none)
        else seqLoopF fuel octets length next (children ++ [child]) := by
  rw [seqLoopF]
  split <;> simp_all
  split <;> simp_all


/-! ## Reading inside the buffer -/

theorem index_lt (octets : Buffer) (i : Nat) (b : Byte) (h : index octets i = some b) :
    i < octets.len := by
  unfold index at h
  by_cases hi : i < octets.len
  · exact hi
  · simp only [hi, if_false] at h
    cases h

theorem index_eq_none (octets : Buffer) (i : Nat) (h : octets.len ≤ i) :
    index octets i = none := by
  unfold index
  have hi : ¬ i < octets.len := by omega
  simp only [hi, if_false]

theorem index_of_lt (octets : Buffer) (i : Nat) (h : i < octets.len) :
    ∃ b, index octets i = some b ∧ octets.data[i]? = some b := by
  have hi : i < octets.data.length := Nat.lt_of_lt_of_le h octets.valid
  refine ⟨octets.data[i], ?_, List.getElem?_eq_getElem hi⟩
  unfold index
  simp only [h, if_true]
  exact List.getElem?_eq_getElem hi

/-! ## Inversion of a return of `Parse` -/

/-- Every normal return of `Parse` comes from one of the two error returns of the length
check or from the final `return &encoding, offset, err`. -/
theorem ParseF_ret_inv (fuel : Nat) (octets : Buffer) (o : Nat)
    (enc : Option Encoding) (next : Nat) (err : Option String)
    (h : ParseF fuel octets o = .ret (enc, next, err)) :
    ∃ f idOctet lenOctet, fuel = f + 1 ∧ index octets o = some idOctet ∧
      index octets (o + 1) = some lenOctet ∧
      ((128 ≤ lenOctet.val ∧ enc = none ∧ next = o + 1 ∧ ∃ m, err = some m) ∨
       (lenOctet.val < 128 ∧ o + 2 + lenOctet.val ≤ octets.data.length ∧
          next = o + 2 + lenOctet.val ∧
          ∃ content, parseContentF f (idOctet.val % 32) octets (o + 2) lenOctet.val
              = .ret (content, err) ∧
            enc = some (header octets o idOctet lenOctet content))) := by
  cases fuel with
  | zero => simp [ParseF] at h
  | succ f =>
    cases h0 : index octets o with
    | none => rw [ParseF_fault_id f octets o h0] at h; cases h
    | some idOctet =>
      cases h1 : index octets (o + 1) with
      | none => rw [ParseF_fault_len f octets o h1] at h; cases h
      | some lenOctet =>
        refine ⟨f, idOctet, lenOctet, rfl, rfl, rfl, ?_⟩
        rcases Nat.lt_trichotomy lenOctet.val 128 with hl | hl | hl
        · right
          by_cases hb : o + 2 + lenOctet.val ≤ octets.data.length
          · rw [ParseF_short f octets o idOctet lenOctet h0 h1 hl hb] at h
            cases hc : parseContentF f (idOctet.val % 32) octets (o + 2) lenOctet.val with
            | fault => rw [hc] at h; cases h
            | outOfFuel => rw [hc] at h; cases h
            | ret a =>
              obtain ⟨content, err2⟩ := a
              rw [hc] at h
              simp only [Run.ret.injEq, Prod.mk.injEq] at h
              obtain ⟨he, hn, her⟩ := h
              subst her
              exact ⟨hl, hb, hn.symm, content, rfl, he.symm⟩
          · rw [ParseF_short_fault f octets o idOctet lenOctet h0 h1 hl (by omega)] at h
            cases h
        · left
          rw [ParseF_indefinite f octets o idOctet lenOctet h0 h1 hl] at h
          simp only [Run.ret.injEq, Prod.mk.injEq] at h
          exact ⟨by omega, h.1.symm, h.2.1.symm, _, h.2.2.symm⟩
        · left
          rw [ParseF_long f octets o idOctet lenOctet h0 h1 hl] at h
          simp only [Run.ret.injEq, Prod.mk.injEq] at h
          exact ⟨by omega, h.1.symm, h.2.1.symm, _, h.2.2.symm⟩

/-- A unit decoded without error ends at least two octets after its start and within
the capacity of the buffer, and its two header octets lie within the length. -/
theorem ParseF_ok_next (fuel : Nat) (octets : Buffer) (o : Nat)
    (enc : Option Encoding) (next : Nat)
    (h : ParseF fuel octets o = .ret (enc, next, none)) :
    o + 2 ≤ next ∧ o + 2 ≤ octets.len ∧ next ≤ octets.data.length := by
  obtain ⟨f, idOctet, lenOctet, -, -, h1, h⟩ := ParseF_ret_inv fuel octets o enc next none h
  have hlt := index_lt octets (o + 1) lenOctet h1
  rcases h with ⟨-, -, -, m, hm⟩ | ⟨-, hb, hn, -⟩
  · cases hm
  · omega

/-! ## Fuel -/

/-- More fuel does not change a result that was reached. -/
theorem fuel_mono_step (f : Nat) :
    (∀ octets o, ParseF f octets o ≠ .outOfFuel →
        ParseF (f + 1) octets o = ParseF f octets o) ∧
    (∀ tag octets offset length, parseContentF f tag octets offset length ≠ .outOfFuel →
        parseContentF (f + 1) tag octets offset length
          = parseContentF f tag octets offset length) ∧
    (∀ octets length p cs, seqLoopF f octets length p cs ≠ .outOfFuel →
        seqLoopF (f + 1) octets length p cs = seqLoopF f octets length p cs) := by
  induction f with
  | zero =>
    refine ⟨fun octets o h => absurd (by simp [ParseF]) h, ?_, fun octets length p cs h =>
      absurd (by simp [seqLoopF]) h⟩
    intro tag octets offset length h
    by_cases h16 : tag = 16
    · subst h16
      exact absurd (parseContentF_seq_zero octets offset length) h
    · by_cases h6 : tag = 6
      · subst h6; rw [parseContentF_oid, parseContentF_oid]
      · by_cases h3 : tag = 3
        · subst h3; rw [parseContentF_bits, parseContentF_bits]
        · rw [parseContentF_other _ _ _ _ _ h16 h6 h3, parseContentF_other _ _ _ _ _ h16 h6 h3]
  | succ f ih =>
    obtain ⟨ihP, ihC, ihL⟩ := ih
    refine ⟨?_, ?_, ?_⟩
    · intro octets o h
      cases h0 : index octets o with
      | none => rw [ParseF_fault_id _ octets o h0, ParseF_fault_id _ octets o h0]
      | some idOctet =>
        cases h1 : index octets (o + 1) with
        | none => rw [ParseF_fault_len _ octets o h1, ParseF_fault_len _ octets o h1]
        | some lenOctet =>
          rcases Nat.lt_trichotomy lenOctet.val 128 with hl | hl | hl
          · by_cases hb : o + 2 + lenOctet.val ≤ octets.data.length
            · rw [ParseF_short _ octets o idOctet lenOctet h0 h1 hl hb] at h ⊢
              rw [ParseF_short _ octets o idOctet lenOctet h0 h1 hl hb]
              have hc : parseContentF f (idOctet.val % 32) octets (o + 2) lenOctet.val
                  ≠ .outOfFuel := by
                intro hc; rw [hc] at h; exact h rfl
              rw [ihC _ _ _ _ hc]
            · rw [ParseF_short_fault _ octets o idOctet lenOctet h0 h1 hl (by omega),
                ParseF_short_fault _ octets o idOctet lenOctet h0 h1 hl (by omega)]
          · rw [ParseF_indefinite _ octets o idOctet lenOctet h0 h1 hl,
              ParseF_indefinite _ octets o idOctet lenOctet h0 h1 hl]
          · rw [ParseF_long _ octets o idOctet lenOctet h0 h1 hl,
              ParseF_long _ octets o idOctet lenOctet h0 h1 hl]
    · intro tag octets offset length h
      by_cases h16 : tag = 16
      · subst h16
        rw [parseContentF_seq_succ] at h ⊢
        rw [parseContentF_seq_succ]
        exact ihL _ _ _ _ h
      · by_cases h6 : tag = 6
        · subst h6; rw [parseContentF_oid, parseContentF_oid]
        · by_cases h3 : tag = 3
          · subst h3; rw [parseContentF_bits, parseContentF_bits]
          · rw [parseContentF_other _ _ _ _ _ h16 h6 h3, parseContentF_other _ _ _ _ _ h16 h6 h3]
    · intro octets length p cs h
      rw [seqLoopF_succ] at h ⊢
      rw [seqLoopF_succ]
      have hp : ParseF f octets p ≠ .outOfFuel := by
        intro hp; rw [hp] at h; exact h rfl
      rw [ihP _ _ hp]
      cases hr : ParseF f octets p with
      | fault => rfl
      | outOfFuel => exact absurd hr hp
      | ret a =>
        obtain ⟨child, next, err⟩ := a
        cases err with
        | some e => rfl
        | none =>
          rw [hr] at h
          simp only at h ⊢
          by_cases hn : next ≥ length
          · simp only [hn, if_true]
          · simp only [hn, if_false] at h ⊢
            exact ihL _ _ _ _ h


theorem ParseF_mono (f g : Nat) (octets : Buffer) (o : Nat) (hfg : f ≤ g)
    (h : ParseF f octets o ≠ .outOfFuel) : ParseF g octets o = ParseF f octets o := by
  induction g with
  | zero =>
    have : f = 0 := by omega
    subst this; rfl
  | succ g ih =>
    by_cases hg : f = g + 1
    · subst hg; rfl
    · have h1 := ih (by omega)
      rw [← h1] at h ⊢
      exact (fuel_mono_step g).1 octets o h

theorem parseContentF_mono (f g tag : Nat) (octets : Buffer) (offset length : Nat)
    (hfg : f ≤ g) (h : parseContentF f tag octets offset length ≠ .outOfFuel) :
    parseContentF g tag octets offset length = parseContentF f tag octets offset length := by
  induction g with
  | zero =>
    have : f = 0 := by omega
    subst this; rfl
  | succ g ih =>
    by_cases hg : f = g + 1
    · subst hg; rfl
    · have h1 := ih (by omega)
      rw [← h1] at h ⊢
      exact (fuel_mono_step g).2.1 tag octets offset length h

theorem seqLoopF_mono (f g : Nat) (octets : Buffer) (length p : Nat)
    (cs : List (Option Encoding)) (hfg : f ≤ g)
    (h : seqLoopF f octets length p cs ≠ .outOfFuel) :
    seqLoopF g octets length p cs = seqLoopF f octets length p cs := by
  induction g with
  | zero =>
    have : f = 0 := by omega
    subst this; rfl
  | succ g ih =>
    by_cases hg : f = g + 1
    · subst hg; rfl
    · have h1 := ih (by omega)
      rw [← h1] at h ⊢
      exact (fuel_mono_step g).2.2 octets length p cs h

/-- The fuel that a call at a given offset needs is bounded by the number of octets that
remain in the buffer. -/
theorem fuel_enough (f : Nat) :
    (∀ octets o, 2 * (octets.len - o) + 1 ≤ f → ParseF f octets o ≠ .outOfFuel) ∧
    (∀ tag octets offset length, 2 * (octets.len - offset) + 3 ≤ f →
        parseContentF f tag octets offset length ≠ .outOfFuel) ∧
    (∀ octets length p cs, 2 * (octets.len - p) + 2 ≤ f →
        seqLoopF f octets length p cs ≠ .outOfFuel) := by
  induction f using Nat.strong_induction_on with
  | _ f ih =>
    refine ⟨?_, ?_, ?_⟩
    · intro octets o hf
      obtain ⟨g, rfl⟩ : ∃ g, f = g + 1 := ⟨f - 1, by omega⟩
      cases h0 : index octets o with
      | none => rw [ParseF_fault_id _ octets o h0]; simp
      | some idOctet =>
        cases h1 : index octets (o + 1) with
        | none => rw [ParseF_fault_len _ octets o h1]; simp
        | some lenOctet =>
          have hlt := index_lt octets (o + 1) lenOctet h1
          rcases Nat.lt_trichotomy lenOctet.val 128 with hl | hl | hl
          · by_cases hb : o + 2 + lenOctet.val ≤ octets.data.length
            · rw [ParseF_short _ octets o idOctet lenOctet h0 h1 hl hb]
              have hc := (ih g (by omega)).2.1 (idOctet.val % 32) octets (o + 2)
                lenOctet.val (by omega)
              cases hr : parseContentF g (idOctet.val % 32) octets (o + 2) lenOctet.val with
              | fault => simp
              | outOfFuel => exact absurd hr hc
              | ret a => simp
            · rw [ParseF_short_fault _ octets o idOctet lenOctet h0 h1 hl (by omega)]; simp
          · rw [ParseF_indefinite _ octets o idOctet lenOctet h0 h1 hl]; simp
          · rw [ParseF_long _ octets o idOctet lenOctet h0 h1 hl]; simp
    · intro tag octets offset length hf
      obtain ⟨g, rfl⟩ : ∃ g, f = g + 1 := ⟨f - 1, by omega⟩
      by_cases h16 : tag = 16
      · subst h16
        rw [parseContentF_seq_succ]
        exact (ih g (by omega)).2.2 octets length offset [] (by omega)
      · by_cases h6 : tag = 6
        · subst h6; rw [parseContentF_oid]; unfold parseOid; split <;> simp
        · by_cases h3 : tag = 3
          · subst h3; rw [parseContentF_bits]; unfold parseBitString
            split
            · simp
            · split
              · simp
              · dsimp only
                split <;> simp
          · rw [parseContentF_other _ _ _ _ _ h16 h6 h3]; simp
    · intro octets length p cs hf
      obtain ⟨g, rfl⟩ : ∃ g, f = g + 1 := ⟨f - 1, by omega⟩
      rw [seqLoopF_succ]
      have hp := (ih g (by omega)).1 octets p (by omega)
      cases hr : ParseF g octets p with
      | fault => simp
      | outOfFuel => exact absurd hr hp
      | ret a =>
        obtain ⟨child, next, err⟩ := a
        cases err with
        | some e => simp
        | none =>
          have hn := ParseF_ok_next g octets p child next hr
          by_cases hl : next ≥ length
          · simp [hl]
          · simp only [hl, if_false]
            exact (ih g (by omega)).2.2 octets length next (cs ++ [child]) (by omega)

/-- The fuel `Parse` supplies is never exhausted: every call returns or panics. -/
theorem Parse_ne_outOfFuel (octets : Buffer) (o : Nat) : Parse octets o ≠ .outOfFuel :=
  (fuel_enough _).1 octets o (by omega)

/-! ## The recursion equations of the source, free of fuel -/

theorem Parse_eq_ParseF (f : Nat) (octets : Buffer) (o : Nat)
    (hf : 2 * (octets.len - o) + 1 ≤ f) : ParseF f octets o = Parse octets o := by
  have h := (fuel_enough f).1 octets o hf
  rcases Nat.le_total f (2 * octets.len + 1) with hle | hle
  · exact (ParseF_mono f _ octets o hle h).symm
  · exact ParseF_mono _ f octets o hle ((fuel_enough _).1 octets o (by omega))

theorem parseContent_eq_parseContentF (f tag : Nat) (octets : Buffer) (offset length : Nat)
    (hf : 2 * (octets.len - offset) + 3 ≤ f) :
    parseContentF f tag octets offset length = parseContent tag octets offset length := by
  have h := (fuel_enough f).2.1 tag octets offset length hf
  rcases Nat.le_total f (2 * octets.len + 3) with hle | hle
  · exact (parseContentF_mono f _ tag octets offset length hle h).symm
  · exact parseContentF_mono _ f tag octets offset length hle
      ((fuel_enough _).2.1 tag octets offset length (by omega))

theorem seqLoop_eq_seqLoopF (f : Nat) (octets : Buffer) (length p : Nat)
    (cs : List (Option Encoding)) (hf : 2 * (octets.len - p) + 2 ≤ f) :
    seqLoopF f octets length p cs = seqLoop octets length p cs := by
  have h := (fuel_enough f).2.2 octets length p cs hf
  rcases Nat.le_total f (2 * octets.len + 2) with hle | hle
  · exact (seqLoopF_mono f _ octets length p cs hle h).symm
  · exact seqLoopF_mono _ f octets length p cs hle
      ((fuel_enough _).2.2 octets length p cs (by omega))


theorem Parse_fault_id (octets : Buffer) (o : Nat) (h : index octets o = none) :
    Parse octets o = .fault :=
  ParseF_fault_id _ octets o h

theorem Parse_fault_len (octets : Buffer) (o : Nat) (h : index octets (o + 1) = none) :
    Parse octets o = .fault :=
  ParseF_fault_len _ octets o h

theorem Parse_short (octets : Buffer) (o : Nat) (idOctet lenOctet : Byte)
    (h0 : index octets o = some idOctet) (h1 : index octets (o + 1) = some lenOctet)
    (hl : lenOctet.val < 128) (hb : o + 2 + lenOctet.val ≤ octets.data.length) :
    Parse octets o =
      match parseContent (idOctet.val % 32) octets (o + 2) lenOctet.val with
      | .fault => .fault
      | .outOfFuel => .outOfFuel
      | .ret (content, err) =>
        .ret (some (header octets o idOctet lenOctet content), o + 2 + lenOctet.val, err) := by
  have hlt := index_lt octets (o + 1) lenOctet h1
  unfold Parse
  rw [ParseF_short _ octets o idOctet lenOctet h0 h1 hl hb,
    parseContent_eq_parseContentF _ _ octets (o + 2) lenOctet.val (by omega)]

theorem parseContent_seq (octets : Buffer) (offset length : Nat) :
    parseContent 16 octets offset length = seqLoop octets length offset [] := by
  unfold parseContent seqLoop
  rw [parseContentF_seq_succ]

theorem seqLoop_eq (octets : Buffer) (length p : Nat) (cs : List (Option Encoding)) :
    seqLoop octets length p cs =
      match Parse octets p with
      | .fault => .fault
      | .outOfFuel => .outOfFuel
      | .ret (_, _, some e) => .ret (.nil, some e)
      | .ret (child, next, none) =>
        if next ≥ length then .ret (.children (cs ++ [child]), none)
        else seqLoop octets length next (cs ++ [child]) := by
  unfold seqLoop Parse
  rw [seqLoopF_succ]
  cases hr : ParseF (2 * octets.len + 1) octets p with
  | fault => rfl
  | outOfFuel => rfl
  | ret a =>
    obtain ⟨child, next, err⟩ := a
    cases err with
    | some e => rfl
    | none =>
      have hn := ParseF_ok_next _ octets p child next hr
      by_cases hl : next ≥ length
      · simp only [hl, if_true]
      · simp only [hl, if_false]
        exact seqLoop_eq_seqLoopF _ octets length next (cs ++ [child]) (by omega)

/-- The inversion of a return of `Parse`, with the fuel removed. -/
theorem Parse_ret_inv (octets : Buffer) (o : Nat)
    (enc : Option Encoding) (next : Nat) (err : Option String)
    (h : Parse octets o = .ret (enc, next, err)) :
    ∃ idOctet lenOctet, index octets o = some idOctet ∧
      index octets (o + 1) = some lenOctet ∧
      ((128 ≤ lenOctet.val ∧ enc = none ∧ next = o + 1 ∧ ∃ m, err = some m) ∨
       (lenOctet.val < 128 ∧ o + 2 + lenOctet.val ≤ octets.data.length ∧
          next = o + 2 + lenOctet.val ∧
          ∃ content, parseContent (idOctet.val % 32) octets (o + 2) lenOctet.val
              = .ret (content, err) ∧
            enc = some (header octets o idOctet lenOctet content))) := by
  obtain ⟨f, idOctet, lenOctet, hf, h0, h1, hc⟩ := ParseF_ret_inv _ octets o enc next err h
  refine ⟨idOctet, lenOctet, h0, h1, ?_⟩
  rcases hc with hc | ⟨hl, hb, hn, content, hc, he⟩
  · exact Or.inl hc
  · refine Or.inr ⟨hl, hb, hn, content, ?_, he⟩
    have hlt := index_lt octets (o + 1) lenOctet h1
    have hf2 : f = 2 * octets.len := by omega
    rw [← hc, hf2]
    exact (parseContent_eq_parseContentF _ _ octets (o + 2) lenOctet.val (by omega)).symm


/-! ## BIT STRING -/

theorem fmt08b_length (b : Byte) : (fmt08b b.val).data.length = 8 := by
  rw [fmt08b_data]; simp

theorem fmt08b_getElem? (b : Byte) (k : Nat) (hk : k < 8) :
    (fmt08b b.val).data[k]? = some (if b.val.testBit (7 - k) then '1' else '0') := by
  rw [fmt08b_data]
  simp [List.getElem?_map, List.getElem?_range hk]

theorem foldl_append_data (content : List Byte) (acc : String) :
    (content.foldl (fun bitstring n => bitstring ++ fmt08b n.val) acc).data
      = acc.data ++ content.flatMap (fun n => (fmt08b n.val).data) := by
  induction content generalizing acc with
  | nil => simp
  | cons n rest ih => simp [ih, String.data_append, List.append_assoc]

theorem expandBits_data (content : List Byte) :
    (expandBits content).data = content.flatMap (fun n => (fmt08b n.val).data) := by
  unfold expandBits
  rw [foldl_append_data]; rfl

theorem length_flatMap_blocks {α β : Type} (f : α → List β) (k : Nat)
    (hf : ∀ a, (f a).length = k) (l : List α) : (l.flatMap f).length = k * l.length := by
  induction l with
  | nil => simp
  | cons a l ih => simp [List.flatMap_cons, ih, hf, Nat.mul_succ, Nat.add_comm]

theorem getElem?_flatMap_blocks {α β : Type} (f : α → List β) (k : Nat) (hk : 0 < k)
    (hf : ∀ a, (f a).length = k) (l : List α) (i : Nat) :
    (l.flatMap f)[i]? = (l[i / k]?).bind (fun a => (f a)[i % k]?) := by
  induction l generalizing i with
  | nil => simp
  | cons a l ih =>
    rw [List.flatMap_cons]
    by_cases hi : i < k
    · rw [List.getElem?_append_left (by rw [hf]; exact hi)]
      simp [Nat.div_eq_of_lt hi, Nat.mod_eq_of_lt hi]
    · have hge : k ≤ i := Nat.le_of_not_lt hi
      rw [List.getElem?_append_right (by rw [hf]; exact hge), hf, ih]
      have h1 : i / k = (i - k) / k + 1 := by
        rw [← Nat.sub_add_cancel hge, Nat.add_div_right _ hk]; simp
      have h2 : (i - k) % k = i % k := by
        conv_rhs => rw [← Nat.sub_add_cancel hge]
        simp
      rw [h1, h2]; simp


theorem parseContent_bits (octets : Buffer) (offset length : Nat) :
    parseContent 3 octets offset length = parseBitString octets offset length :=
  parseContentF_bits _ octets offset length

theorem parseContent_oid (octets : Buffer) (offset length : Nat) :
    parseContent 6 octets offset length = parseOid octets offset length :=
  parseContentF_oid _ octets offset length

theorem parseContent_other (tag : Nat) (octets : Buffer) (offset length : Nat)
    (h16 : tag ≠ 16) (h6 : tag ≠ 6) (h3 : tag ≠ 3) :
    parseContent tag octets offset length
      = .ret (.str "<unsupported representation>", none) :=
  parseContentF_other _ tag octets offset length h16 h6 h3

/-- The text of all the bits of the octets that follow the padding count. -/
theorem bits_length (octets : Buffer) (off n : Nat) (hn : 1 ≤ n)
    (hb : off + n ≤ octets.data.length) :
    (((octets.data.drop (off + 1)).take (n - 1)).flatMap (fun b => (fmt08b b.val).data)).length
      = 8 * (n - 1) := by
  rw [length_flatMap_blocks _ 8 fmt08b_length]
  simp only [List.length_take, List.length_drop]
  omega

theorem parseBitString_ok (octets : Buffer) (off n : Nat) (padding : Byte)
    (hp : index octets off = some padding) (hn : 1 ≤ n) (hb : off + n ≤ octets.data.length)
    (hpad : padding.val ≤ 8 * (n - 1)) :
    parseBitString octets off n = .ret (.str (String.mk
      ((((octets.data.drop (off + 1)).take (n - 1)).flatMap (fun b => (fmt08b b.val).data)).take
        (8 * (n - 1) - padding.val))), none) := by
  unfold parseBitString
  have hs : slice octets (off + 1) (off + n) = some ((octets.data.drop (off + 1)).take (n - 1)) := by
    unfold slice
    have h1 : off + 1 ≤ off + n ∧ off + n ≤ octets.data.length := ⟨by omega, hb⟩
    have h2 : off + n - (off + 1) = n - 1 := by omega
    simp only [h1, and_self, if_true, h2]
  have hlen := bits_length octets off n hn hb
  simp only [hp, hs, trimPadding, expandBits_data, hlen, hpad, if_true]

theorem parseBitString_fault_empty (octets : Buffer) (off : Nat) :
    parseBitString octets off 0 = .fault := by
  unfold parseBitString
  cases h : index octets off with
  | none => rfl
  | some padding =>
    have hs : slice octets (off + 1) (off + 0) = none := by
      unfold slice
      have : ¬ (off + 1 ≤ off + 0 ∧ off + 0 ≤ octets.data.length) := by omega
      simp only [this, if_false]
    simp only [hs]

/-- The character at position `i` of the bit text is the bit `7 - i % 8` of the octet
number `i / 8` after the padding count. -/
theorem bits_getElem? (octets : Buffer) (off n i : Nat) (hn : 1 ≤ n)
    (hb : off + n ≤ octets.len) (hi : i < 8 * (n - 1)) :
    ∃ b, index octets (off + (1 + i / 8)) = some b ∧
      (((octets.data.drop (off + 1)).take (n - 1)).flatMap (fun b => (fmt08b b.val).data))[i]?
        = some (if b.val.testBit (7 - i % 8) then '1' else '0') := by
  have hq : i / 8 < n - 1 := by omega
  have hlt : off + (1 + i / 8) < octets.len := by omega
  obtain ⟨b, hb1, hb2⟩ := index_of_lt octets (off + (1 + i / 8)) hlt
  refine ⟨b, hb1, ?_⟩
  · rw [getElem?_flatMap_blocks _ 8 (by decide) fmt08b_length]
    have h1 : ((octets.data.drop (off + 1)).take (n - 1))[i / 8]? = some b := by
      rw [List.getElem?_take_of_lt hq, List.getElem?_drop]
      have : off + 1 + i / 8 = off + (1 + i / 8) := by omega
      rw [this]
      exact hb2
    rw [h1]
    simp only [Option.some_bind]
    exact fmt08b_getElem? _ _ (Nat.mod_lt _ (by decide))


/-! ## OBJECT IDENTIFIER -/

set_option maxRecDepth 100000 in
/-- `strconv.ParseInt` rejects the base 128, so every component is the text of 0. -/
theorem oidComponent_eq_zero (n : Byte) : oidComponent n = "0" := by
  revert n; decide

theorem parseOid_ok (octets : Buffer) (off n : Nat) (hb : off + n ≤ octets.data.length) :
    parseOid octets off n
      = .ret (.str (stringsJoin (List.replicate n "0") "."), none) := by
  unfold parseOid slice
  have h1 : off ≤ off + n ∧ off + n ≤ octets.data.length := ⟨by omega, hb⟩
  have h2 : off + n - off = n := by omega
  simp only [h1, and_self, if_true, h2]
  have h3 : ((octets.data.drop off).take n).map oidComponent = List.replicate n "0" := by
    apply List.ext_getElem
    · simp only [List.length_map, List.length_take, List.length_drop, List.length_replicate]
      omega
    · intro i _ _
      simp only [List.getElem_map, oidComponent_eq_zero, List.getElem_replicate]
  rw [h3]

/-! ## Error messages -/

theorem lengthError_prefix (what : String) (idOctet lenOctet : Byte) (cls : Nat)
    (className : String) (tag : Nat) (tagName : String) :
    what.data <+: (lengthError what idOctet lenOctet cls className tag tagName).data := by
  unfold lengthError
  simp only [String.data_append, List.append_assoc]
  exact List.prefix_append _ _

/-! ## The child loop -/

/-- From every state the loop passes through, the rest of the loop computes the result
of the whole loop. -/
theorem seqLoop_of_reach (octets : Buffer) (length start p : Nat)
    (cs : List (Option Encoding)) (h : SeqReach octets length start p cs) :
    seqLoop octets length start [] = seqLoop octets length p cs := by
  induction h with
  | entry => rfl
  | next p cs child q _ hchild hq ih =>
    rw [ih, seqLoop_eq octets length p cs, hchild]
    have : ¬ q ≥ length := by omega
    simp only [this, if_false]

/-! ## What a decoded child looks like -/

theorem header_Bytes_length (octets : Buffer) (o : Nat) (idOctet lenOctet : Byte)
    (content : Content) (hb : o + 2 + lenOctet.val ≤ octets.data.length) :
    (header octets o idOctet lenOctet content).Bytes.length = 2 + lenOctet.val := by
  simp only [header, List.length_take, List.length_drop]
  omega

/-- A child decoded without error is a record that starts at the cursor and whose
`Bytes` end at the returned cursor. -/
theorem Parse_ok_child (octets : Buffer) (p : Nat) (child : Option Encoding) (q : Nat)
    (h : Parse octets p = .ret (child, q, none)) :
    ∃ c, child = some c ∧ c.Offset = p ∧ c.Offset + c.Bytes.length = q ∧
      2 ≤ c.Bytes.length ∧ q ≤ octets.data.length := by
  obtain ⟨idOctet, lenOctet, -, -, hc⟩ := Parse_ret_inv octets p child q none h
  rcases hc with ⟨-, -, -, m, hm⟩ | ⟨-, hb, hn, content, -, he⟩
  · cases hm
  · have hlen := header_Bytes_length octets p idOctet lenOctet content hb
    refine ⟨_, he, rfl, ?_, ?_, ?_⟩
    · show p + (header octets p idOctet lenOctet content).Bytes.length = q
      omega
    · omega
    · omega

/-! ## The states of the child loop -/

theorem cursorAfter_concat (s : Nat) (l : List Encoding) (c : Encoding) :
    cursorAfter s (l ++ [c]) = c.Offset + c.Bytes.length := by
  simp [cursorAfter, List.foldl_append]

theorem contiguous_concat (s : Nat) (l : List Encoding) (c : Encoding) :
    Contiguous s (l ++ [c]) ↔ Contiguous s l ∧ c.Offset = cursorAfter s l := by
  induction l generalizing s with
  | nil => simp [Contiguous, cursorAfter]
  | cons a l ih =>
    show (a.Offset = s ∧ Contiguous (a.Offset + a.Bytes.length) (l ++ [c])) ↔
      (a.Offset = s ∧ Contiguous (a.Offset + a.Bytes.length) l) ∧
        c.Offset = cursorAfter (a.Offset + a.Bytes.length) l
    rw [ih]
    exact and_assoc.symm

theorem contiguous_getElem? (s : Nat) (l : List Encoding) (i : Nat) (a b : Encoding)
    (h : Contiguous s l) (ha : l[i]? = some a) (hb : l[i + 1]? = some b) :
    b.Offset = a.Offset + a.Bytes.length := by
  induction l generalizing s i with
  | nil => simp at ha
  | cons c l ih =>
    obtain ⟨-, hrest⟩ := h
    cases i with
    | zero =>
      simp only [List.getElem?_cons_zero, Option.some.injEq] at ha
      subst ha
      cases l with
      | nil => simp at hb
      | cons d l =>
        simp only [List.getElem?_cons_succ, List.getElem?_cons_zero, Option.some.injEq] at hb
        subst hb
        exact hrest.1
    | succ j =>
      simp only [List.getElem?_cons_succ] at ha hb
      exact ih _ j hrest ha hb

theorem contiguous_head (s : Nat) (l : List Encoding) (c : Encoding)
    (h : Contiguous s l) (hc : l.head? = some c) : c.Offset = s := by
  cases l with
  | nil => simp at hc
  | cons a l =>
    simp only [List.head?_cons, Option.some.injEq] at hc
    subst hc
    exact h.1

/-- What holds at the top of every iteration of the child loop: the children decoded so
far are non-nil, lie one behind the other from the entry cursor up to the current
cursor, each has at least two `Bytes`, and each ended before the bound `length`. -/
theorem reach_inv (octets : Buffer) (length start p : Nat) (cs : List (Option Encoding))
    (h : SeqReach octets length start p cs) :
    ∃ l : List Encoding, cs = l.map some ∧ Contiguous start l ∧ cursorAfter start l = p ∧
      (∀ c ∈ l, c.Offset + c.Bytes.length < length) ∧ (∀ c ∈ l, 2 ≤ c.Bytes.length) := by
  induction h with
  | entry => exact ⟨[], rfl, trivial, rfl, by simp, by simp⟩
  | next p cs child q _ hchild hq ih =>
    obtain ⟨l, hcs, hcont, hcur, hlt, hlen⟩ := ih
    obtain ⟨c, hc, hoff, hend, h2, -⟩ := Parse_ok_child octets p child q hchild
    refine ⟨l ++ [c], ?_, ?_, ?_, ?_, ?_⟩
    · simp [hcs, hc]
    · exact (contiguous_concat start l c).2 ⟨hcont, by omega⟩
    · rw [cursorAfter_concat]; exact hend
    · intro d hd
      rcases List.mem_append.1 hd with hd | hd
      · exact hlt d hd
      · simp only [List.mem_singleton] at hd
        subst hd; omega
    · intro d hd
      rcases List.mem_append.1 hd with hd | hd
      · exact hlen d hd
      · simp only [List.mem_singleton] at hd
        subst hd; exact h2

/-- The three ways the child loop ends, from any state it passes through: a panic, the
error of a child, or a child whose end cursor is at or beyond `length`. -/
theorem seqLoop_cases (octets : Buffer) (length start : Nat) (n : Nat) :
    ∀ p cs, octets.len - p ≤ n → SeqReach octets length start p cs →
      seqLoop octets length p cs = .fault ∨
      (∃ p2 cs2 child q e, SeqReach octets length start p2 cs2 ∧
        Parse octets p2 = .ret (child, q, some e) ∧
        seqLoop octets length p cs = .ret (.nil, some e)) ∨
      (∃ p2 cs2 child q, SeqReach octets length start p2 cs2 ∧
        Parse octets p2 = .ret (child, q, none) ∧ length ≤ q ∧
        seqLoop octets length p cs = .ret (.children (cs2 ++ [child]), none)) := by
  induction n with
  | zero =>
    intro p cs hn _
    left
    rw [seqLoop_eq, Parse_fault_id octets p (index_eq_none octets p (by omega))]
  | succ n ih =>
    intro p cs hn hreach
    rw [seqLoop_eq]
    cases hr : Parse octets p with
    | fault => left; rfl
    | outOfFuel => exact absurd hr (Parse_ne_outOfFuel octets p)
    | ret a =>
      obtain ⟨child, q, err⟩ := a
      cases err with
      | some e => exact Or.inr (Or.inl ⟨p, cs, child, q, e, hreach, hr, rfl⟩)
      | none =>
        obtain ⟨c, -, hoff, hend, h2, hq⟩ := Parse_ok_child octets p child q hr
        by_cases hl : q ≥ length
        · refine Or.inr (Or.inr ⟨p, cs, child, q, hreach, hr, hl, ?_⟩)
          simp only [hl, if_true]
        · simp only [hl, if_false]
          exact ih q (cs ++ [child]) (by omega)
            (SeqReach.next p cs child q hreach hr (by omega))

/-- A SEQUENCE decoded without error: its child list is what the loop had collected when
a child ended at or beyond the bound, that child included. -/
theorem Parse_seq_ok (octets : Buffer) (o : Nat) (e : Encoding) (next : Nat)
    (h : Parse octets o = .ret (some e, next, none)) (htag : e.Tag = 16) :
    ∃ idOctet lenOctet p cs child q, index octets o = some idOctet ∧
      index octets (o + 1) = some lenOctet ∧ lenOctet.val < 128 ∧
      e = header octets o idOctet lenOctet (.children (cs ++ [child])) ∧
      SeqReach octets lenOctet.val (o + 2) p cs ∧
      Parse octets p = .ret (child, q, none) ∧ lenOctet.val ≤ q := by
  obtain ⟨idOctet, lenOctet, h0, h1, hc⟩ := Parse_ret_inv octets o (some e) next none h
  rcases hc with ⟨-, -, -, m, hm⟩ | ⟨hl, hb, hn, content, hc, he⟩
  · cases hm
  · simp only [Option.some.injEq] at he
    subst he
    have ht : idOctet.val % 32 = 16 := htag
    rw [ht, parseContent_seq] at hc
    rcases seqLoop_cases octets lenOctet.val (o + 2) (octets.len - (o + 2)) (o + 2) []
      (Nat.le_refl _) SeqReach.entry with hf | ⟨p, cs, child, q, e2, -, -, hres⟩ |
      ⟨p, cs, child, q, hreach, hchild, hq, hres⟩
    · rw [hf] at hc; cases hc
    · rw [hres] at hc; cases hc
    · rw [hres] at hc
      simp only [Run.ret.injEq, Prod.mk.injEq, and_true] at hc
      subst hc
      exact ⟨idOctet, lenOctet, p, cs, child, q, h0, h1, hl, rfl, hreach, hchild, hq⟩

/-- A SEQUENCE whose decode returns an error: the error is that of a child the loop
tried to decode. -/
theorem Parse_seq_err (octets : Buffer) (o : Nat) (idOctet lenOctet : Byte)
    (enc : Option Encoding) (next : Nat) (e : String)
    (h0 : index octets o = some idOctet) (htag : idOctet.val % 32 = 16)
    (h1 : index octets (o + 1) = some lenOctet) (hshort : lenOctet.val < 128)
    (h : Parse octets o = .ret (enc, next, some e)) :
    ∃ p cs child q, SeqReach octets lenOctet.val (o + 2) p cs ∧
      Parse octets p = .ret (child, q, some e) := by
  obtain ⟨id2, len2, g0, g1, hc⟩ := Parse_ret_inv octets o enc next (some e) h
  rw [h0] at g0
  rw [h1] at g1
  simp only [Option.some.injEq] at g0 g1
  subst g0 g1
  rcases hc with ⟨hge, -⟩ | ⟨-, -, -, content, hc, -⟩
  · omega
  · rw [htag, parseContent_seq] at hc
    rcases seqLoop_cases octets lenOctet.val (o + 2) (octets.len - (o + 2)) (o + 2) []
      (Nat.le_refl _) SeqReach.entry with hf | ⟨p, cs, child, q, e2, hreach, hchild, hres⟩ |
      ⟨p, cs, child, q, -, -, -, hres⟩
    · rw [hf] at hc; cases hc
    · rw [hres] at hc
      simp only [Run.ret.injEq, Prod.mk.injEq, Option.some.injEq] at hc
      obtain ⟨-, hc⟩ := hc
      subst hc
      exact ⟨p, cs, child, q, hreach, hchild⟩
    · rw [hres] at hc; cases hc

theorem Parse_other_tag (octets : Buffer) (o : Nat) (idOctet lenOctet : Byte)
    (h0 : index octets o = some idOctet) (h1 : index octets (o + 1) = some lenOctet)
    (hshort : lenOctet.val < 128) (hb : o + 2 + lenOctet.val ≤ octets.data.length)
    (h16 : idOctet.val % 32 ≠ 16) (h6 : idOctet.val % 32 ≠ 6) (h3 : idOctet.val % 32 ≠ 3) :
    Parse octets o = .ret (some (header octets o idOctet lenOctet
      (.str "<unsupported representation>")), o + 2 + lenOctet.val, none) := by
  rw [Parse_short octets o idOctet lenOctet h0 h1 hshort hb,
    parseContent_other _ _ _ _ h16 h6 h3]

/-- An error of a unit whose tag is none of 3, 6 and 16 comes from the length octet. -/
theorem Parse_other_tag_err (octets : Buffer) (o : Nat) (idOctet lenOctet : Byte)
    (enc : Option Encoding) (next : Nat) (m : String)
    (h0 : index octets o = some idOctet) (h1 : index octets (o + 1) = some lenOctet)
    (h16 : idOctet.val % 32 ≠ 16) (h6 : idOctet.val % 32 ≠ 6) (h3 : idOctet.val % 32 ≠ 3)
    (h : Parse octets o = .ret (enc, next, some m)) : 128 ≤ lenOctet.val := by
  obtain ⟨id2, len2, g0, g1, hc⟩ := Parse_ret_inv octets o enc next (some m) h
  rw [h0] at g0
  rw [h1] at g1
  simp only [Option.some.injEq] at g0 g1
  subst g0 g1
  rcases hc with ⟨hge, -⟩ | ⟨-, -, -, content, hc, -⟩
  · exact hge
  · rw [parseContent_other _ _ _ _ h16 h6 h3] at hc
    simp at hc

/-! ## The name tables at the fields of an octet -/

set_option maxRecDepth 100000 in
theorem classNames_at (b : Byte) :
    classNames[b.val / 64]? = some (classNames.getD (b.val / 64) "") := by
  revert b; decide

set_option maxRecDepth 100000 in
theorem pcNamaes_at (b : Byte) :
    pcNamaes[b.val / 32 % 2]? = some (pcNamaes.getD (b.val / 32 % 2) "") := by
  revert b; decide

set_option maxRecDepth 100000 in
theorem tagNames_at (b : Byte) (h : b.val % 32 ≤ 30) :
    tagNames[b.val % 32]? = some (toUniversalTagName (b.val % 32)) := by
  revert b; decide

/-- The cursor of the child loop never goes back behind the cursor it was entered
with. -/
theorem reach_ge (octets : Buffer) (length start p : Nat) (cs : List (Option Encoding))
    (h : SeqReach octets length start p cs) : start ≤ p := by
  induction h with
  | entry => exact Nat.le_refl _
  | next p cs child q _ hchild _ ih =>
    have := (ParseF_ok_next _ octets p child q hchild).1
    omega

/-! ## Well-formed trees -/

theorem header_wellFormed_str (octets : Buffer) (o : Nat) (idOctet lenOctet : Byte)
    (s : String) (hl : lenOctet.val < 128) :
    WellFormed (header octets o idOctet lenOctet (.str s)) := by
  have hlt : idOctet.val < 256 := idOctet.isLt
  refine WellFormed.leaf _ s rfl ?_ ?_ rfl ?_
  · show idOctet.val / 64 ≤ 3
    omega
  · show idOctet.val / 32 % 2 ≤ 1
    omega
  · show lenOctet.val ≤ 127
    omega

theorem header_wellFormed_children (octets : Buffer) (o : Nat) (idOctet lenOctet : Byte)
    (cs : List (Option Encoding)) (hl : lenOctet.val < 128)
    (hne : ∀ c ∈ cs, c ≠ none) (hwf : ∀ c, some c ∈ cs → WellFormed c) :
    WellFormed (header octets o idOctet lenOctet (.children cs)) := by
  have hlt : idOctet.val < 256 := idOctet.isLt
  refine WellFormed.node _ cs rfl ?_ ?_ rfl ?_ hne hwf
  · show idOctet.val / 64 ≤ 3
    omega
  · show idOctet.val / 32 % 2 ≤ 1
    omega
  · show lenOctet.val ≤ 127
    omega

theorem parseOid_str (octets : Buffer) (off n : Nat) (content : Content)
    (err : Option String) (h : parseOid octets off n = .ret (content, err)) :
    ∃ s, content = .str s := by
  unfold parseOid at h
  split at h
  · cases h
  · simp only [Run.ret.injEq, Prod.mk.injEq] at h
    exact ⟨_, h.1.symm⟩

theorem parseBitString_str (octets : Buffer) (off n : Nat) (content : Content)
    (err : Option String) (h : parseBitString octets off n = .ret (content, err)) :
    ∃ s, content = .str s := by
  unfold parseBitString at h
  split at h
  · cases h
  · split at h
    · cases h
    · dsimp only at h
      split at h
      · cases h
      · simp only [Run.ret.injEq, Prod.mk.injEq] at h
        exact ⟨_, h.1.symm⟩

/-- Every record that the decoder returns without error is well formed, at every
depth of the recursion. -/
theorem wellFormed_fuel (f : Nat) :
    (∀ octets o e next, ParseF f octets o = .ret (some e, next, none) → WellFormed e) ∧
    (∀ tag octets off n content, parseContentF f tag octets off n = .ret (content, none) →
      (∃ s, content = .str s) ∨
      (∃ cs, content = .children cs ∧ (∀ c ∈ cs, c ≠ none) ∧
        ∀ c, some c ∈ cs → WellFormed c)) ∧
    (∀ octets n p cs content, (∀ c ∈ cs, c ≠ none) → (∀ c, some c ∈ cs → WellFormed c) →
      seqLoopF f octets n p cs = .ret (content, none) →
      ∃ cs2, content = .children cs2 ∧ (∀ c ∈ cs2, c ≠ none) ∧
        ∀ c, some c ∈ cs2 → WellFormed c) := by
  induction f with
  | zero =>
    refine ⟨?_, ?_, ?_⟩
    · intro octets o e next h
      simp [ParseF] at h
    · intro tag octets off n content h
      by_cases h16 : tag = 16
      · subst h16
        rw [parseContentF_seq_zero] at h; cases h
      · by_cases h6 : tag = 6
        · subst h6
          rw [parseContentF_oid] at h
          exact Or.inl (parseOid_str _ _ _ _ _ h)
        · by_cases h3 : tag = 3
          · subst h3
            rw [parseContentF_bits] at h
            exact Or.inl (parseBitString_str _ _ _ _ _ h)
          · rw [parseContentF_other _ _ _ _ _ h16 h6 h3] at h
            simp only [Run.ret.injEq, Prod.mk.injEq] at h
            exact Or.inl ⟨_, h.1.symm⟩
    · intro octets n p cs content _ _ h
      simp [seqLoopF] at h
  | succ f ih =>
    obtain ⟨ihP, ihC, ihL⟩ := ih
    refine ⟨?_, ?_, ?_⟩
    · intro octets o e next h
      obtain ⟨g, idOctet, lenOctet, hg, -, -, hc⟩ :=
        ParseF_ret_inv _ octets o (some e) next none h
      have hg2 : g = f := by omega
      subst hg2
      rcases hc with ⟨-, -, -, m, hm⟩ | ⟨hl, -, -, content, hc, he⟩
      · cases hm
      · simp only [Option.some.injEq] at he
        subst he
        rcases ihC _ _ _ _ _ hc with ⟨s, hs⟩ | ⟨cs, hcs, hne, hwf⟩
        · subst hs
          exact header_wellFormed_str octets o idOctet lenOctet s hl
        · subst hcs
          exact header_wellFormed_children octets o idOctet lenOctet cs hl hne hwf
    · intro tag octets off n content h
      by_cases h16 : tag = 16
      · subst h16
        rw [parseContentF_seq_succ] at h
        exact Or.inr (ihL octets n off [] content (by simp) (by simp) h)
      · by_cases h6 : tag = 6
        · subst h6
          rw [parseContentF_oid] at h
          exact Or.inl (parseOid_str _ _ _ _ _ h)
        · by_cases h3 : tag = 3
          · subst h3
            rw [parseContentF_bits] at h
            exact Or.inl (parseBitString_str _ _ _ _ _ h)
          · rw [parseContentF_other _ _ _ _ _ h16 h6 h3] at h
            simp only [Run.ret.injEq, Prod.mk.injEq] at h
            exact Or.inl ⟨_, h.1.symm⟩
    · intro octets n p cs content hne hwf h
      rw [seqLoopF_succ] at h
      cases hr : ParseF f octets p with
      | fault => rw [hr] at h; cases h
      | outOfFuel => rw [hr] at h; cases h
      | ret a =>
        obtain ⟨child, q, err⟩ := a
        rw [hr] at h
        cases err with
        | some e => cases h
        | none =>
          obtain ⟨g, idOctet, lenOctet, -, -, -, hc⟩ :=
            ParseF_ret_inv _ octets p child q none hr
          have hchild : ∃ c, child = some c := by
            rcases hc with ⟨-, -, -, m, hm⟩ | ⟨-, -, -, content2, -, he⟩
            · cases hm
            · exact ⟨_, he⟩
          obtain ⟨c, hc2⟩ := hchild
          subst hc2
          have hwc : WellFormed c := ihP octets p c q hr
          have hne2 : ∀ d ∈ cs ++ [some c], d ≠ none := by
            intro d hd
            rcases List.mem_append.1 hd with hd | hd
            · exact hne d hd
            · simp only [List.mem_singleton] at hd
              subst hd; simp
          have hwf2 : ∀ d, some d ∈ cs ++ [some c] → WellFormed d := by
            intro d hd
            rcases List.mem_append.1 hd with hd | hd
            · exact hwf d hd
            · simp only [List.mem_singleton, Option.some.injEq] at hd
              subst hd; exact hwc
          simp only at h
          by_cases hq : q ≥ n
          · simp only [hq, if_true, Run.ret.injEq, Prod.mk.injEq, and_true] at h
            exact ⟨_, h.symm, hne2, hwf2⟩
          · simp only [hq, if_false] at h
            exact ihL octets n q _ content hne2 hwf2 h

theorem wellFormed_inTree (root n : Encoding) (h : WellFormed root) (hn : InTree root n) :
    WellFormed n := by
  induction hn with
  | root => exact h
  | child m cs c _ hcs hc ih =>
    cases ih with
    | leaf _ s hs => rw [hs] at hcs; cases hcs
    | node _ cs2 hcs2 _ _ _ _ _ hwf =>
      rw [hcs2] at hcs
      simp only [Content.children.injEq] at hcs
      subst hcs
      exact hwf c hc

/-! ## Rendering a well-formed tree -/

theorem renderEncoding_eq (e : Encoding) (depth : Nat) :
    renderEncoding e depth =
      match renderContent e.Content depth with
      | none => none
      | some contentStr =>
        some (String.mk (List.replicate depth ' ') ++ headerLine e ++ " " ++ contentStr) := by
  cases e
  rw [renderEncoding]

theorem renderChildren_ne_none (cs : List (Option Encoding)) (depth : Nat)
    (hne : ∀ c ∈ cs, c ≠ none)
    (hok : ∀ c, some c ∈ cs → ∀ d, renderEncoding c d ≠ none) :
    ∀ acc, renderChildren cs depth acc ≠ none := by
  induction cs with
  | nil => intro acc; simp [renderChildren]
  | cons c cs ih =>
    intro acc
    cases c with
    | none => exact absurd rfl (hne none (List.mem_cons_self _ _))
    | some e =>
      rw [renderChildren, Encoding.toString]
      cases hr : renderEncoding e (depth + 1) with
      | none => exact absurd hr (hok e (List.mem_cons_self _ _) _)
      | some s =>
        exact ih (fun d hd => hne d (List.mem_cons_of_mem _ hd))
          (fun d hd => hok d (List.mem_cons_of_mem _ hd)) _

theorem wellFormed_renders (e : Encoding) (h : WellFormed e) :
    ∀ depth, renderEncoding e depth ≠ none := by
  induction h with
  | leaf e s hs _ _ _ _ =>
    intro depth
    rw [renderEncoding_eq, hs, renderContent]
    simp
  | node e cs hcs _ _ _ _ hne _ ih =>
    intro depth
    rw [renderEncoding_eq, hcs, renderContent]
    cases hr : renderChildren cs depth "" with
    | none => exact absurd hr (renderChildren_ne_none cs depth hne ih "")
    | some s => simp

theorem parseBitString_fault_padding (octets : Buffer) (off n : Nat) (padding : Byte)
    (hp : index octets off = some padding) (hn : 1 ≤ n) (hb : off + n ≤ octets.data.length)
    (hpad : 8 * (n - 1) < padding.val) : parseBitString octets off n = .fault := by
  unfold parseBitString
  have hs : slice octets (off + 1) (off + n) = some ((octets.data.drop (off + 1)).take (n - 1)) := by
    unfold slice
    have h1 : off + 1 ≤ off + n ∧ off + n ≤ octets.data.length := ⟨by omega, hb⟩
    have h2 : off + n - (off + 1) = n - 1 := by omega
    simp only [h1, and_self, if_true, h2]
  have hlen := bits_length octets off n hn hb
  have hnot : ¬ padding.val ≤ 8 * (n - 1) := by omega
  simp only [hp, hs, trimPadding, expandBits_data, hlen, hnot, if_false]

/-! ## Two buffers that agree from an offset on -/

theorem drop_agree (octets₁ octets₂ : Buffer) (k p : Nat)
    (hag : ∀ i, k ≤ i → octets₁.data[i]? = octets₂.data[i]?) (hp : k ≤ p) :
    octets₁.data.drop p = octets₂.data.drop p := by
  apply List.ext_getElem?
  intro i
  rw [List.getElem?_drop, List.getElem?_drop]
  exact hag (p + i) (by omega)

theorem index_agree (octets₁ octets₂ : Buffer) (k p : Nat)
    (hlen : octets₁.len = octets₂.len)
    (hag : ∀ i, k ≤ i → octets₁.data[i]? = octets₂.data[i]?) (hp : k ≤ p) :
    index octets₁ p = index octets₂ p := by
  unfold index
  rw [hlen, hag p hp]

theorem slice_agree (octets₁ octets₂ : Buffer) (k lo hi : Nat)
    (hcap : octets₁.data.length = octets₂.data.length)
    (hag : ∀ i, k ≤ i → octets₁.data[i]? = octets₂.data[i]?) (hlo : k ≤ lo) :
    slice octets₁ lo hi = slice octets₂ lo hi := by
  unfold slice
  rw [hcap, drop_agree octets₁ octets₂ k lo hag hlo]

theorem header_agree (octets₁ octets₂ : Buffer) (k p : Nat) (idOctet lenOctet : Byte)
    (content : Content)
    (hag : ∀ i, k ≤ i → octets₁.data[i]? = octets₂.data[i]?) (hp : k ≤ p) :
    header octets₁ p idOctet lenOctet content = header octets₂ p idOctet lenOctet content := by
  unfold header
  rw [drop_agree octets₁ octets₂ k p hag hp,
    drop_agree octets₁ octets₂ k (p + 2) hag (by omega)]

/-- The decoder reads the buffer only from the start offset on: two buffers of the same
length and capacity that agree from `k` on give the same result at every offset
`p ≥ k`. -/
theorem agree_fuel (octets₁ octets₂ : Buffer) (k : Nat)
    (hlen : octets₁.len = octets₂.len)
    (hcap : octets₁.data.length = octets₂.data.length)
    (hag : ∀ i, k ≤ i → octets₁.data[i]? = octets₂.data[i]?) (f : Nat) :
    (∀ p, k ≤ p → ParseF f octets₁ p = ParseF f octets₂ p) ∧
    (∀ tag off n, k ≤ off →
      parseContentF f tag octets₁ off n = parseContentF f tag octets₂ off n) ∧
    (∀ n p cs, k ≤ p → seqLoopF f octets₁ n p cs = seqLoopF f octets₂ n p cs) := by
  have hcontent : ∀ g tag off n, k ≤ off → tag ≠ 16 →
      parseContentF g tag octets₁ off n = parseContentF g tag octets₂ off n := by
    intro g tag off n hoff h16
    by_cases h6 : tag = 6
    · subst h6
      rw [parseContentF_oid, parseContentF_oid]
      unfold parseOid
      rw [slice_agree octets₁ octets₂ k off (off + n) hcap hag hoff]
    · by_cases h3 : tag = 3
      · subst h3
        rw [parseContentF_bits, parseContentF_bits]
        unfold parseBitString
        rw [index_agree octets₁ octets₂ k off hlen hag hoff,
          slice_agree octets₁ octets₂ k (off + 1) (off + n) hcap hag (by omega)]
      · rw [parseContentF_other _ _ _ _ _ h16 h6 h3, parseContentF_other _ _ _ _ _ h16 h6 h3]
  induction f with
  | zero =>
    refine ⟨fun p _ => by simp [ParseF], ?_, fun n p cs _ => by simp [seqLoopF]⟩
    intro tag off n hoff
    by_cases h16 : tag = 16
    · subst h16
      rw [parseContentF_seq_zero, parseContentF_seq_zero]
    · exact hcontent 0 tag off n hoff h16
  | succ f ih =>
    obtain ⟨ihP, ihC, ihL⟩ := ih
    refine ⟨?_, ?_, ?_⟩
    · intro p hp
      have e0 := index_agree octets₁ octets₂ k p hlen hag hp
      have e1 := index_agree octets₁ octets₂ k (p + 1) hlen hag (by omega)
      cases h0 : index octets₁ p with
      | none =>
        rw [ParseF_fault_id _ octets₁ p h0, ParseF_fault_id _ octets₂ p (e0 ▸ h0)]
      | some idOctet =>
        cases h1 : index octets₁ (p + 1) with
        | none =>
          rw [ParseF_fault_len _ octets₁ p h1, ParseF_fault_len _ octets₂ p (e1 ▸ h1)]
        | some lenOctet =>
          have g0 : index octets₂ p = some idOctet := e0 ▸ h0
          have g1 : index octets₂ (p + 1) = some lenOctet := e1 ▸ h1
          rcases Nat.lt_trichotomy lenOctet.val 128 with hl | hl | hl
          · by_cases hb : p + 2 + lenOctet.val ≤ octets₁.data.length
            · rw [ParseF_short _ octets₁ p idOctet lenOctet h0 h1 hl hb,
                ParseF_short _ octets₂ p idOctet lenOctet g0 g1 hl (hcap ▸ hb),
                ihC _ _ _ (by omega)]
              cases parseContentF f (idOctet.val % 32) octets₂ (p + 2) lenOctet.val with
              | fault => rfl
              | outOfFuel => rfl
              | ret a =>
                obtain ⟨content, err⟩ := a
                simp only
                rw [header_agree octets₁ octets₂ k p idOctet lenOctet content hag hp]
            · rw [ParseF_short_fault _ octets₁ p idOctet lenOctet h0 h1 hl (by omega),
                ParseF_short_fault _ octets₂ p idOctet lenOctet g0 g1 hl (by omega)]
          · rw [ParseF_indefinite _ octets₁ p idOctet lenOctet h0 h1 hl,
              ParseF_indefinite _ octets₂ p idOctet lenOctet g0 g1 hl]
          · rw [ParseF_long _ octets₁ p idOctet lenOctet h0 h1 hl,
              ParseF_long _ octets₂ p idOctet lenOctet g0 g1 hl]
    · intro tag off n hoff
      by_cases h16 : tag = 16
      · subst h16
        rw [parseContentF_seq_succ, parseContentF_seq_succ]
        exact ihL n off [] hoff
      · exact hcontent (f + 1) tag off n hoff h16
    · intro n p cs hp
      rw [seqLoopF_succ, seqLoopF_succ, ihP p hp]
      cases hr : ParseF f octets₂ p with
      | fault => rfl
      | outOfFuel => rfl
      | ret a =>
        obtain ⟨child, q, err⟩ := a
        cases err with
        | some e => rfl
        | none =>
          have hq := (ParseF_ok_next f octets₂ p child q hr).1
          simp only
          rw [ihL n q (cs ++ [child]) (by omega)]

theorem parseContent_agree (octets₁ octets₂ : Buffer) (k tag off n : Nat)
    (hlen : octets₁.len = octets₂.len)
    (hcap : octets₁.data.length = octets₂.data.length)
    (hag : ∀ i, k ≤ i → octets₁.data[i]? = octets₂.data[i]?) (hoff : k ≤ off) :
    parseContent tag octets₁ off n = parseContent tag octets₂ off n := by
  unfold parseContent
  rw [hlen]
  exact (agree_fuel octets₁ octets₂ k hlen hcap hag _).2.1 tag off n hoff

theorem header_Bytes_tail (octets : Buffer) (o : Nat) (idOctet lenOctet : Byte)
    (content : Content) :
    (header octets o idOctet lenOctet content).Bytes.drop 1
      = (octets.data.drop (o + 1)).take (1 + lenOctet.val) := by
  show ((octets.data.drop o).take (2 + lenOctet.val)).drop 1 = _
  rw [List.drop_take, List.drop_drop]
  have h1 : 2 + lenOctet.val - 1 = 1 + lenOctet.val := by omega
  rw [h1]

/-- One direction of the comparison of two buffers that differ at most in the top three
bits of the octet at `o`. -/
theorem Parse_same_tag (octets₁ octets₂ : Buffer) (o : Nat)
    (hlen : octets₁.len = octets₂.len)
    (hcap : octets₁.data.length = octets₂.data.length)
    (hsame : ∀ i, i ≠ o → octets₁.data[i]? = octets₂.data[i]?)
    (hid : (index octets₁ o).map (fun b => b.val % 32)
      = (index octets₂ o).map (fun b => b.val % 32)) :
    (Parse octets₁ o = .fault → Parse octets₂ o = .fault) ∧
    (∀ enc₁ n err₁, Parse octets₁ o = .ret (enc₁, n, err₁) →
      ∃ enc₂ err₂, Parse octets₂ o = .ret (enc₂, n, err₂) ∧
        (err₁ = none ↔ err₂ = none) ∧ (enc₁ = none ↔ enc₂ = none) ∧
        ∀ e₁, enc₁ = some e₁ → ∃ e₂, enc₂ = some e₂ ∧ err₂ = err₁ ∧
          e₂.Tag = e₁.Tag ∧ e₂.Length = e₁.Length ∧ e₂.ContentBytes = e₁.ContentBytes ∧
          e₂.Content = e₁.Content ∧ e₂.Offset = e₁.Offset ∧ e₂.TagName = e₁.TagName ∧
          e₂.IsShortFormLength = e₁.IsShortFormLength ∧
          e₂.Bytes.drop 1 = e₁.Bytes.drop 1) := by
  have hag : ∀ i, o + 1 ≤ i → octets₁.data[i]? = octets₂.data[i]? := fun i hi => hsame i (by omega)
  cases h0 : index octets₁ o with
  | none =>
    rw [h0] at hid
    have g0 : index octets₂ o = none := by
      cases hg : index octets₂ o with
      | none => rfl
      | some b => rw [hg] at hid; simp at hid
    rw [Parse_fault_id octets₁ o h0, Parse_fault_id octets₂ o g0]
    exact ⟨fun _ => rfl, fun _ _ _ h => by cases h⟩
  | some id₁ =>
    rw [h0] at hid
    obtain ⟨id₂, g0, hmod⟩ : ∃ id₂, index octets₂ o = some id₂ ∧
        id₂.val % 32 = id₁.val % 32 := by
      cases hg : index octets₂ o with
      | none => rw [hg] at hid; simp at hid
      | some b =>
        rw [hg] at hid
        simp only [Option.map_some', Option.some.injEq] at hid
        exact ⟨b, rfl, hid.symm⟩
    have e1 : index octets₁ (o + 1) = index octets₂ (o + 1) :=
      index_agree octets₁ octets₂ (o + 1) (o + 1) hlen hag (Nat.le_refl _)
    cases h1 : index octets₁ (o + 1) with
    | none =>
      rw [Parse_fault_len octets₁ o h1, Parse_fault_len octets₂ o (e1 ▸ h1)]
      exact ⟨fun _ => rfl, fun _ _ _ h => by cases h⟩
    | some lenOctet =>
      have g1 : index octets₂ (o + 1) = some lenOctet := e1 ▸ h1
      rcases Nat.lt_trichotomy lenOctet.val 128 with hl | hl | hl
      · by_cases hb : o + 2 + lenOctet.val ≤ octets₁.data.length
        · rw [Parse_short octets₁ o id₁ lenOctet h0 h1 hl hb,
            Parse_short octets₂ o id₂ lenOctet g0 g1 hl (hcap ▸ hb), hmod,
            parseContent_agree octets₁ octets₂ (o + 1) _ (o + 2) _ hlen hcap hag (by omega)]
          cases parseContent (id₁.val % 32) octets₂ (o + 2) lenOctet.val with
          | fault => exact ⟨fun _ => rfl, fun _ _ _ h => by cases h⟩
          | outOfFuel => exact ⟨fun h => (by cases h), fun _ _ _ h => by cases h⟩
          | ret a =>
            obtain ⟨content, err⟩ := a
            refine ⟨fun h => (by cases h), ?_⟩
            intro enc₁ n err₁ h
            simp only [Run.ret.injEq, Prod.mk.injEq] at h
            obtain ⟨he, hn, herr⟩ := h
            subst he hn herr
            refine ⟨_, _, rfl, Iff.rfl, by simp, ?_⟩
            intro e₁ he₁
            simp only [Option.some.injEq] at he₁
            subst he₁
            refine ⟨_, rfl, rfl, hmod, rfl, ?_, rfl, rfl, ?_, rfl, ?_⟩
            · show (octets₂.data.drop (o + 2)).take lenOctet.val
                = (octets₁.data.drop (o + 2)).take lenOctet.val
              rw [drop_agree octets₁ octets₂ (o + 1) (o + 2) hag (by omega)]
            · show toUniversalTagName (id₂.val % 32) = toUniversalTagName (id₁.val % 32)
              rw [hmod]
            · rw [header_Bytes_tail, header_Bytes_tail,
                drop_agree octets₁ octets₂ (o + 1) (o + 1) hag (Nat.le_refl _)]
        · have r₁ : Parse octets₁ o = .fault :=
            ParseF_short_fault _ octets₁ o id₁ lenOctet h0 h1 hl (by omega)
          have r₂ : Parse octets₂ o = .fault :=
            ParseF_short_fault _ octets₂ o id₂ lenOctet g0 g1 hl (by omega)
          rw [r₁, r₂]
          exact ⟨fun _ => rfl, fun _ _ _ h => by cases h⟩
      · have r₁ : Parse octets₁ o = _ := ParseF_indefinite _ octets₁ o id₁ lenOctet h0 h1 hl
        have r₂ : Parse octets₂ o = _ := ParseF_indefinite _ octets₂ o id₂ lenOctet g0 g1 hl
        rw [r₁, r₂]
        refine ⟨fun h => (by cases h), ?_⟩
        intro enc₁ n err₁ h
        simp only [Run.ret.injEq, Prod.mk.injEq] at h
        obtain ⟨he, hn, herr⟩ := h
        subst he hn herr
        exact ⟨_, _, rfl, by simp, Iff.rfl, fun e₁ he₁ => by cases he₁⟩
      · have r₁ : Parse octets₁ o = _ := ParseF_long _ octets₁ o id₁ lenOctet h0 h1 hl
        have r₂ : Parse octets₂ o = _ := ParseF_long _ octets₂ o id₂ lenOctet g0 g1 hl
        rw [r₁, r₂]
        refine ⟨fun h => (by cases h), ?_⟩
        intro enc₁ n err₁ h
        simp only [Run.ret.injEq, Prod.mk.injEq] at h
        obtain ⟨he, hn, herr⟩ := h
        subst he hn herr
        exact ⟨_, _, rfl, by simp, Iff.rfl, fun e₁ he₁ => by cases he₁⟩

/-! ## The claims -/

/-- C1 (evaluation at two inputs that break the claim). On `30 04 05 00 05 00` at offset
0 `Parse` returns, without error, a SEQUENCE whose `ContentBytes` are `05 00 05 00` while
its child list holds the single child `05 00`: the loop compares the absolute cursor 4
with the length 4 and stops. On `30 00 05 00` a SEQUENCE of `Length` 0 gets one child,
taken from behind its empty content window. -/
theorem seq_children_do_not_cover_content :
    (∃ e cs, Parse (Buffer.ofList [0x30, 0x04, 0x05, 0x00, 0x05, 0x00]) 0 = .ret (some e, 6, none) ∧
      e.Tag = 16 ∧ e.ContentBytes = [0x05, 0x00, 0x05, 0x00] ∧
      e.Content = .children cs ∧ childrenBytes cs = [0x05, 0x00]) ∧
    (∃ e cs, Parse (Buffer.ofList [0x30, 0x00, 0x05, 0x00]) 0 = .ret (some e, 2, none) ∧
      e.Tag = 16 ∧ e.Length = 0 ∧ e.ContentBytes = [] ∧
      e.Content = .children cs ∧ childrenBytes cs = [0x05, 0x00]) :=
  ⟨⟨_, _, rfl, rfl, rfl, rfl, rfl⟩, ⟨_, _, rfl, rfl, rfl, rfl, rfl, rfl⟩⟩

/-- C2. Whenever `Parse` returns with a nil error, the `*Encoding` is not nil, its
`Offset` is the start offset, its `Length` is the low seven bits of the octet at
`offset+1`, its `ContentBytes` are `octets[offset+2 : offset+2+Length]` (so their number
is `Length`), its `Bytes` are `octets[offset : offset+2+Length]`, and the returned offset
is `offset + 2 + Length`; the tag plays no role. -/
theorem Parse_ok_fields (octets : Buffer) (o : Nat) (enc : Option Encoding) (next : Nat)
    (h : Parse octets o = .ret (enc, next, none)) :
    ∃ e lenOctet, enc = some e ∧ index octets (o + 1) = some lenOctet ∧
      e.Offset = o ∧ e.Length = lenOctet.val % 128 ∧
      slice octets (o + 2) (o + 2 + e.Length) = some e.ContentBytes ∧
      e.ContentBytes.length = e.Length ∧
      slice octets o (o + 2 + e.Length) = some e.Bytes ∧
      next = o + 2 + e.Length := by
  obtain ⟨idOctet, lenOctet, -, h1, hc⟩ := Parse_ret_inv octets o enc next none h
  rcases hc with ⟨-, -, -, m, hm⟩ | ⟨hl, hb, hn, content, -, he⟩
  · cases hm
  · refine ⟨header octets o idOctet lenOctet content, lenOctet, he, h1, rfl,
      (Nat.mod_eq_of_lt hl).symm, ?_, ?_, ?_, hn⟩
    · have h2 : o + 2 ≤ o + 2 + lenOctet.val ∧ o + 2 + lenOctet.val ≤ octets.data.length :=
        ⟨by omega, hb⟩
      have h3 : o + 2 + lenOctet.val - (o + 2) = lenOctet.val := by omega
      simp only [header, slice, h2, and_self, if_true, h3]
    · simp only [header, List.length_take, List.length_drop]
      omega
    · have h2 : o ≤ o + 2 + lenOctet.val ∧ o + 2 + lenOctet.val ≤ octets.data.length :=
        ⟨by omega, hb⟩
      have h3 : o + 2 + lenOctet.val - o = 2 + lenOctet.val := by omega
      simp only [header, slice, h2, and_self, if_true, h3]

/-- C2, at the BIT STRING test vector read at offset 0, and at a buffer of length 2 and
capacity 8 holding `04 03`, where the content `00 00 00` lies behind the length. -/
theorem Parse_ok_fields_witness :
    (∃ e lenOctet,
      some (header (Buffer.ofList [0x03, 0x04, 0x06, 0x6e, 0x5d, 0xc0]) 0 0x03 0x04
        (.str "011011100101110111")) = some e ∧
      index (Buffer.ofList [0x03, 0x04, 0x06, 0x6e, 0x5d, 0xc0]) (0 + 1) = some lenOctet ∧
      e.Offset = 0 ∧ e.Length = lenOctet.val % 128 ∧
      slice (Buffer.ofList [0x03, 0x04, 0x06, 0x6e, 0x5d, 0xc0]) (0 + 2) (0 + 2 + e.Length)
        = some e.ContentBytes ∧
      e.ContentBytes.length = e.Length ∧
      slice (Buffer.ofList [0x03, 0x04, 0x06, 0x6e, 0x5d, 0xc0]) 0 (0 + 2 + e.Length)
        = some e.Bytes ∧
      6 = 0 + 2 + e.Length) ∧
    (Parse prefixBuffer 0
        = .ret (some (header prefixBuffer 0 0x04 0x03 (.str "<unsupported representation>")),
          5, none) ∧
      (header prefixBuffer 0 0x04 0x03 (.str "<unsupported representation>")).ContentBytes
        = [0x00, 0x00, 0x00] ∧
      ∃ e lenOctet,
        some (header prefixBuffer 0 0x04 0x03 (.str "<unsupported representation>"))
          = some e ∧
        index prefixBuffer (0 + 1) = some lenOctet ∧
        e.Offset = 0 ∧ e.Length = lenOctet.val % 128 ∧
        slice prefixBuffer (0 + 2) (0 + 2 + e.Length) = some e.ContentBytes ∧
        e.ContentBytes.length = e.Length ∧
        slice prefixBuffer 0 (0 + 2 + e.Length) = some e.Bytes ∧
        5 = 0 + 2 + e.Length) :=
  ⟨Parse_ok_fields (Buffer.ofList [0x03, 0x04, 0x06, 0x6e, 0x5d, 0xc0]) 0
      (some (header (Buffer.ofList [0x03, 0x04, 0x06, 0x6e, 0x5d, 0xc0]) 0 0x03 0x04
        (.str "011011100101110111"))) 6 rfl,
    rfl, rfl,
    Parse_ok_fields prefixBuffer 0
      (some (header prefixBuffer 0 0x04 0x03 (.str "<unsupported representation>"))) 5 rfl⟩

/-- C3. An in-bounds short-form unit with tag number 3, `Length` `n ≥ 1` and padding
count `p ≤ 8 * (n - 1)` is decoded without error, and its `Content` is the string of
`8 * (n - 1) - p` characters whose `i`-th character is `1` exactly when bit `7 - i % 8`
of content octet number `1 + i / 8` is set: the eight-digit binary expansions of the
content octets `1 .. n-1`, concatenated, without their last `p` characters. -/
theorem bitString_content (octets : Buffer) (o : Nat) (idOctet lenOctet padding : Byte)
    (h0 : index octets o = some idOctet) (htag : idOctet.val % 32 = 3)
    (h1 : index octets (o + 1) = some lenOctet) (hshort : lenOctet.val < 128)
    (hb : o + 2 + lenOctet.val ≤ octets.len) (hn : 1 ≤ lenOctet.val)
    (hp : index octets (o + 2) = some padding)
    (hpad : padding.val ≤ 8 * (lenOctet.val - 1)) :
    ∃ e s, Parse octets o = .ret (some e, o + 2 + lenOctet.val, none) ∧
      e.Tag = 3 ∧ e.Length = lenOctet.val ∧ e.Content = .str s ∧
      s.data.length = 8 * (lenOctet.val - 1) - padding.val ∧
      (∀ i, i < 8 * (lenOctet.val - 1) - padding.val →
        ∃ b, index octets (o + 2 + (1 + i / 8)) = some b ∧
          s.data[i]? = some (if b.val.testBit (7 - i % 8) then '1' else '0')) ∧
      s.data = (((octets.data.drop (o + 2 + 1)).take (lenOctet.val - 1)).flatMap
        (fun b => (fmt08b b.val).data)).rdrop padding.val := by
  have hv := octets.valid
  have hP := Parse_short octets o idOctet lenOctet h0 h1 hshort (Nat.le_trans hb octets.valid)
  rw [htag, parseContent_bits,
    parseBitString_ok octets (o + 2) lenOctet.val padding hp hn (by omega) hpad] at hP
  have hlen := bits_length octets (o + 2) lenOctet.val hn (by omega)
  refine ⟨_, _, hP, htag, rfl, rfl, ?_, ?_, ?_⟩
  · simp only [List.length_take, hlen]
    omega
  · intro i hi
    obtain ⟨b, hb1, hb2⟩ := bits_getElem? octets (o + 2) lenOctet.val i hn (by omega)
      (by omega)
    refine ⟨b, hb1, ?_⟩
    rw [List.getElem?_take_of_lt hi]
    exact hb2
  · simp only [List.rdrop, hlen]

/-- C3, at the test vector `03 04 06 6e 5d c0`, whose content is
`011011100101110111`. -/
theorem bitString_content_witness :
    Parse (Buffer.ofList [0x03, 0x04, 0x06, 0x6e, 0x5d, 0xc0]) 0
      = .ret (some (header (Buffer.ofList [0x03, 0x04, 0x06, 0x6e, 0x5d, 0xc0]) 0 0x03 0x04
          (.str "011011100101110111")), 6, none) ∧
    ∃ e s, Parse (Buffer.ofList [0x03, 0x04, 0x06, 0x6e, 0x5d, 0xc0]) 0 = .ret (some e, 0 + 2 + 4, none) ∧
      e.Tag = 3 ∧ e.Length = 4 ∧ e.Content = .str s ∧
      s.data.length = 8 * (4 - 1) - 6 ∧
      (∀ i, i < 8 * (4 - 1) - 6 →
        ∃ b, index (Buffer.ofList [0x03, 0x04, 0x06, 0x6e, 0x5d, 0xc0]) (0 + 2 + (1 + i / 8)) = some b ∧
          s.data[i]? = some (if b.val.testBit (7 - i % 8) then '1' else '0')) ∧
      s.data = (((([0x03, 0x04, 0x06, 0x6e, 0x5d, 0xc0] : List Byte).drop (0 + 2 + 1)).take
        (4 - 1)).flatMap (fun b => (fmt08b b.val).data)).rdrop 6 :=
  ⟨rfl, bitString_content (Buffer.ofList [0x03, 0x04, 0x06, 0x6e, 0x5d, 0xc0]) 0 0x03 0x04 0x06
    rfl (by decide) rfl (by decide) (by decide) (by decide) rfl (by decide)⟩


/-- C4 (evaluation at the failing input). On the OBJECT IDENTIFIER vector of the test
table, `06 06 2a 86 48 86 f7 0d`, `Parse` returns the `Content` `0.0.0.0.0.0`, not the
object identifier `1.2.840.113549` that the octets encode and the test expects. -/
theorem oid_test_vector_content :
    Parse (Buffer.ofList [0x06, 0x06, 0x2a, 0x86, 0x48, 0x86, 0xf7, 0x0d]) 0
      = .ret (some (header (Buffer.ofList [0x06, 0x06, 0x2a, 0x86, 0x48, 0x86, 0xf7, 0x0d]) 0 0x06 0x06
          (.str "0.0.0.0.0.0")), 8, none) ∧
    (Content.str "0.0.0.0.0.0" ≠ Content.str "1.2.840.113549") :=
  ⟨rfl, by simp⟩

/-- C5 (evaluation at the failing input). On `06 03 2a 86 48` the components are not the
decimal values `42.134.72` of the content octets: `Content` is `0.0.0`, because the value
that `strconv.ParseInt` returns for the illegal base 128 is 0 for every octet. -/
theorem oid_components_are_zero :
    Parse (Buffer.ofList [0x06, 0x03, 0x2a, 0x86, 0x48]) 0
      = .ret (some (header (Buffer.ofList [0x06, 0x03, 0x2a, 0x86, 0x48]) 0 0x06 0x03 (.str "0.0.0")),
          5, none) ∧
    stringsJoin (([0x2a, 0x86, 0x48] : List Byte).map (fun n => fmtD n.val)) "."
      = "42.134.72" ∧
    (Content.str "0.0.0" ≠ Content.str "42.134.72") ∧
    (∀ n : Byte, strconvParseInt (fmtD n.val) 128 8 = (0, some NumError.errBase)) :=
  ⟨rfl, by decide, by simp, by
    set_option maxRecDepth 100000 in
    decide⟩

/-- C6. Two in-bounds short-form units with tag number 3, the same `Length` `n ≥ 1` and
the same padding count `p ≤ 8 * (n - 1)`, whose content octets `1 .. n-1` agree on their
first `8 * (n - 1) - p` bits, are both decoded without error to the same `Content`
string. -/
theorem bitString_padding_independent (octets₁ octets₂ : Buffer) (o₁ o₂ : Nat)
    (id₁ id₂ lenOctet padding : Byte)
    (h0₁ : index octets₁ o₁ = some id₁) (htag₁ : id₁.val % 32 = 3)
    (h1₁ : index octets₁ (o₁ + 1) = some lenOctet)
    (hb₁ : o₁ + 2 + lenOctet.val ≤ octets₁.len)
    (hp₁ : index octets₁ (o₁ + 2) = some padding)
    (h0₂ : index octets₂ o₂ = some id₂) (htag₂ : id₂.val % 32 = 3)
    (h1₂ : index octets₂ (o₂ + 1) = some lenOctet)
    (hb₂ : o₂ + 2 + lenOctet.val ≤ octets₂.len)
    (hp₂ : index octets₂ (o₂ + 2) = some padding)
    (hshort : lenOctet.val < 128) (hn : 1 ≤ lenOctet.val)
    (hpad : padding.val ≤ 8 * (lenOctet.val - 1))
    (hagree : ∀ i, i < 8 * (lenOctet.val - 1) - padding.val →
      (index octets₁ (o₁ + 2 + (1 + i / 8))).map (fun b => b.val.testBit (7 - i % 8))
        = (index octets₂ (o₂ + 2 + (1 + i / 8))).map (fun b => b.val.testBit (7 - i % 8))) :
    ∃ e₁ e₂ s, Parse octets₁ o₁ = .ret (some e₁, o₁ + 2 + lenOctet.val, none) ∧
      Parse octets₂ o₂ = .ret (some e₂, o₂ + 2 + lenOctet.val, none) ∧
      e₁.Content = .str s ∧ e₂.Content = .str s := by
  have hv₁ := octets₁.valid
  have hv₂ := octets₂.valid
  have hP₁ := Parse_short octets₁ o₁ id₁ lenOctet h0₁ h1₁ hshort (Nat.le_trans hb₁ octets₁.valid)
  rw [htag₁, parseContent_bits,
    parseBitString_ok octets₁ (o₁ + 2) lenOctet.val padding hp₁ hn (by omega) hpad] at hP₁
  have hP₂ := Parse_short octets₂ o₂ id₂ lenOctet h0₂ h1₂ hshort (Nat.le_trans hb₂ octets₂.valid)
  rw [htag₂, parseContent_bits,
    parseBitString_ok octets₂ (o₂ + 2) lenOctet.val padding hp₂ hn (by omega) hpad] at hP₂
  refine ⟨_, _, _, hP₁, hP₂, rfl, ?_⟩
  simp only [header, Content.str.injEq]
  congr 1
  apply List.ext_getElem?
  intro i
  by_cases hi : i < 8 * (lenOctet.val - 1) - padding.val
  · obtain ⟨b₁, hb1, hc1⟩ := bits_getElem? octets₁ (o₁ + 2) lenOctet.val i hn (by omega)
      (by omega)
    obtain ⟨b₂, hb2, hc2⟩ := bits_getElem? octets₂ (o₂ + 2) lenOctet.val i hn (by omega)
      (by omega)
    have ha := hagree i hi
    rw [hb1, hb2] at ha
    simp only [Option.map_some', Option.some.injEq] at ha
    rw [List.getElem?_take_of_lt hi, List.getElem?_take_of_lt hi, hc1, hc2, ha]
  · have hl₁ := bits_length octets₁ (o₁ + 2) lenOctet.val hn (by omega)
    have hl₂ := bits_length octets₂ (o₂ + 2) lenOctet.val hn (by omega)
    rw [List.getElem?_eq_none (by simp only [List.length_take, hl₂]; omega),
      List.getElem?_eq_none (by simp only [List.length_take, hl₁]; omega)]


/-- C6, at the two BIT STRING vectors of the test table, `03 04 06 6e 5d e0` and
`03 04 06 6e 5d c0`, which differ in a padding bit only; both give
`011011100101110111`. -/
theorem bitString_padding_independent_witness :
    Parse (Buffer.ofList [0x03, 0x04, 0x06, 0x6e, 0x5d, 0xe0]) 0
      = .ret (some (header (Buffer.ofList [0x03, 0x04, 0x06, 0x6e, 0x5d, 0xe0]) 0 0x03 0x04
          (.str "011011100101110111")), 6, none) ∧
    Parse (Buffer.ofList [0x03, 0x04, 0x06, 0x6e, 0x5d, 0xc0]) 0
      = .ret (some (header (Buffer.ofList [0x03, 0x04, 0x06, 0x6e, 0x5d, 0xc0]) 0 0x03 0x04
          (.str "011011100101110111")), 6, none) ∧
    ∃ e₁ e₂ s, Parse (Buffer.ofList [0x03, 0x04, 0x06, 0x6e, 0x5d, 0xe0]) 0 = .ret (some e₁, 0 + 2 + 4, none) ∧
      Parse (Buffer.ofList [0x03, 0x04, 0x06, 0x6e, 0x5d, 0xc0]) 0 = .ret (some e₂, 0 + 2 + 4, none) ∧
      e₁.Content = .str s ∧ e₂.Content = .str s :=
  ⟨rfl, rfl, bitString_padding_independent (Buffer.ofList [0x03, 0x04, 0x06, 0x6e, 0x5d, 0xe0])
    (Buffer.ofList [0x03, 0x04, 0x06, 0x6e, 0x5d, 0xc0]) 0 0 0x03 0x03 0x04 0x06
    rfl (by decide) rfl (by decide) rfl rfl (by decide) rfl (by decide) rfl
    (by decide) (by decide) (by decide) (by decide)⟩

/-- C7. When two octets are available at the offset and the length octet is `0x80`,
`Parse` returns a nil `*Encoding` and an error whose message begins
`indefinite length is not supported`, whatever the identifier octet is; the outcome is
fixed by these two octets alone, nothing behind them is read (the buffer may end there). -/
theorem indefinite_length_rejected (octets : Buffer) (o : Nat) (idOctet lenOctet : Byte)
    (h0 : index octets o = some idOctet) (h1 : index octets (o + 1) = some lenOctet)
    (hl : lenOctet.val = 0x80) :
    ∃ m, Parse octets o = .ret (none, o + 1, some m) ∧
      "indefinite length is not supported".data <+: m.data ∧
      ∀ (octets2 : Buffer) (o2 : Nat), index octets2 o2 = some idOctet →
        index octets2 (o2 + 1) = some lenOctet →
        Parse octets2 o2 = .ret (none, o2 + 1, some m) :=
  ⟨_, ParseF_indefinite _ octets o idOctet lenOctet h0 h1 hl,
    lengthError_prefix _ _ _ _ _ _ _,
    fun octets2 o2 g0 g1 => ParseF_indefinite _ octets2 o2 idOctet lenOctet g0 g1 hl⟩

/-- C7, at the buffer `05 80`, which ends with the length octet. -/
theorem indefinite_length_rejected_witness :
    ∃ m, Parse (Buffer.ofList [0x05, 0x80]) 0 = .ret (none, 0 + 1, some m) ∧
      "indefinite length is not supported".data <+: m.data ∧
      ∀ (octets2 : Buffer) (o2 : Nat), index octets2 o2 = some 0x05 →
        index octets2 (o2 + 1) = some 0x80 →
        Parse octets2 o2 = .ret (none, o2 + 1, some m) :=
  indefinite_length_rejected (Buffer.ofList [0x05, 0x80]) 0 0x05 0x80 rfl rfl rfl

/-- C8. When two octets are available at the offset: if the length octet is one of
`0x81 .. 0xFF`, `Parse` returns a nil `*Encoding` and an error whose message begins
`definite long length is not supported` (and so does not begin like the
indefinite-length message), whatever the identifier octet is; and if the tag number is
none of 3, 6 and 16 and the content is in bounds, `Parse` returns an error only when the
high bit of the length octet is set. -/
theorem long_length_rejected (octets : Buffer) (o : Nat) (idOctet lenOctet : Byte)
    (h0 : index octets o = some idOctet) (h1 : index octets (o + 1) = some lenOctet) :
    (0x80 < lenOctet.val →
      ∃ m, Parse octets o = .ret (none, o + 1, some m) ∧
        "definite long length is not supported".data <+: m.data ∧
        ¬ "indefinite length is not supported".data <+: m.data) ∧
    (idOctet.val % 32 ≠ 3 → idOctet.val % 32 ≠ 6 → idOctet.val % 32 ≠ 16 →
      o + 2 + lenOctet.val % 128 ≤ octets.len →
      ∀ enc next m, Parse octets o = .ret (enc, next, some m) → 0x80 ≤ lenOctet.val) := by
  refine ⟨fun hl => ⟨_, ParseF_long _ octets o idOctet lenOctet h0 h1 hl,
    lengthError_prefix _ _ _ _ _ _ _, ?_⟩, ?_⟩
  · intro hpre
    have hlong := lengthError_prefix "definite long length is not supported" idOctet lenOctet
      (idOctet.val / 64) (classNames.getD (idOctet.val / 64) "") (idOctet.val % 32)
      (toUniversalTagName (idOctet.val % 32))
    have h2 := List.prefix_of_prefix_length_le hpre hlong (by decide)
    revert h2
    decide
  · intro h3 h6 h16 hb enc next m hret
    by_contra hlt
    have hshort : lenOctet.val < 128 := by omega
    rw [Nat.mod_eq_of_lt hshort] at hb
    rw [Parse_short octets o idOctet lenOctet h0 h1 hshort (Nat.le_trans hb octets.valid),
      parseContent_other _ _ _ _ h16 h6 h3] at hret
    simp at hret

/-- C8, at the buffer `04 81 00`: an OCTET STRING header with the long-form length octet
`0x81`. -/
theorem long_length_rejected_witness :
    (∃ m, Parse (Buffer.ofList [0x04, 0x81, 0x00]) 0 = .ret (none, 0 + 1, some m) ∧
        "definite long length is not supported".data <+: m.data ∧
        ¬ "indefinite length is not supported".data <+: m.data) ∧
    (0x80 ≤ (0x81 : Byte).val) :=
  ⟨(long_length_rejected (Buffer.ofList [0x04, 0x81, 0x00]) 0 0x04 0x81 rfl rfl).1 (by decide),
    (long_length_rejected (Buffer.ofList [0x04, 0x81, 0x00]) 0 0x04 0x81 rfl rfl).2 (by decide) (by decide)
      (by decide) (by decide) none 1 _ rfl⟩


/-- C9 (evaluation at the failing input). On `30 02 05 80`, a SEQUENCE whose only child
has the indefinite length octet `0x80`, `Parse` returns the child's error together with a
non-nil `*Encoding`: the header record of the SEQUENCE with `Content` nil. -/
theorem error_with_non_nil_encoding :
    ∃ m, Parse (Buffer.ofList [0x30, 0x02, 0x05, 0x80]) 0
      = .ret (some (header (Buffer.ofList [0x30, 0x02, 0x05, 0x80]) 0 0x30 0x02 .nil), 4, some m) ∧
    Parse (Buffer.ofList [0x30, 0x02, 0x05, 0x80]) 2 = .ret (none, 3, some m) ∧
    "indefinite length is not supported".data <+: m.data :=
  ⟨_, rfl, rfl, lengthError_prefix _ _ _ _ _ _ _⟩

/-- C10. Let an in-bounds short-form unit with tag number 16 start at `o`, and let its
child loop have reached the cursor `p` with the children `cs` already decoded. If the
decode of the next child, `Parse(octets, p)`, returns the error `e`, then `parseContent`
returns `(nil, e)` and `Parse` of the SEQUENCE returns the same error `e` with a record
whose `Content` is nil: no child list, and none of the children `cs`. -/
theorem seq_child_error_aborts (octets : Buffer) (o : Nat) (idOctet lenOctet : Byte)
    (p : Nat) (cs : List (Option Encoding)) (child : Option Encoding) (q : Nat) (e : String)
    (h0 : index octets o = some idOctet) (htag : idOctet.val % 32 = 16)
    (h1 : index octets (o + 1) = some lenOctet) (hshort : lenOctet.val < 128)
    (hb : o + 2 + lenOctet.val ≤ octets.len)
    (hreach : SeqReach octets lenOctet.val (o + 2) p cs)
    (hchild : Parse octets p = .ret (child, q, some e)) :
    parseContent 16 octets (o + 2) lenOctet.val = .ret (.nil, some e) ∧
    ∃ enc, Parse octets o = .ret (some enc, o + 2 + lenOctet.val, some e) ∧
      enc.Content = .nil ∧ ∀ l, enc.Content ≠ .children l := by
  have hc : parseContent 16 octets (o + 2) lenOctet.val = .ret (.nil, some e) := by
    rw [parseContent_seq, seqLoop_of_reach octets lenOctet.val (o + 2) p cs hreach,
      seqLoop_eq octets lenOctet.val p cs, hchild]
  refine ⟨hc, header octets o idOctet lenOctet .nil, ?_, rfl, ?_⟩
  · rw [Parse_short octets o idOctet lenOctet h0 h1 hshort (Nat.le_trans hb octets.valid), htag, hc]
  · intro l hl
    simp [header] at hl

/-- C10, at the buffer `30 05 05 00 05 80 00`: the first child `05 00` is decoded, the
loop goes on (cursor 4 is below the length 5) and the second child fails on its length
octet `0x80`. -/
theorem seq_child_error_aborts_witness :
    SeqReach (Buffer.ofList [0x30, 0x05, 0x05, 0x00, 0x05, 0x80, 0x00]) 5 (0 + 2) 4
      ([] ++ [some (header (Buffer.ofList [0x30, 0x05, 0x05, 0x00, 0x05, 0x80, 0x00]) 2 0x05 0x00
        (.str "<unsupported representation>"))]) ∧
    ∃ e, Parse (Buffer.ofList [0x30, 0x05, 0x05, 0x00, 0x05, 0x80, 0x00]) 4 = .ret (none, 5, some e) ∧
      parseContent 16 (Buffer.ofList [0x30, 0x05, 0x05, 0x00, 0x05, 0x80, 0x00]) (0 + 2) 5
        = .ret (.nil, some e) ∧
      ∃ enc, Parse (Buffer.ofList [0x30, 0x05, 0x05, 0x00, 0x05, 0x80, 0x00]) 0
          = .ret (some enc, 0 + 2 + 5, some e) ∧
        enc.Content = .nil ∧ ∀ l, enc.Content ≠ .children l :=
  ⟨SeqReach.next 2 [] _ 4 SeqReach.entry rfl (by decide),
    _, rfl,
    seq_child_error_aborts (Buffer.ofList [0x30, 0x05, 0x05, 0x00, 0x05, 0x80, 0x00]) 0 0x30 0x05 4 _ none 5 _
      rfl (by decide) rfl (by decide) (by decide)
      (SeqReach.next 2 [] _ 4 SeqReach.entry rfl (by decide)) rfl⟩

/-- C11 (counterexample). On `30 01 05 00` at offset 0 the SEQUENCE has `Length` 1, its
content window ends at offset 3, and its only child `05 00` ends at offset 4, beyond the
window; `Parse` nevertheless returns with a nil error. -/
theorem seq_overshoot_example :
    ∃ e c, Parse (Buffer.ofList [0x30, 0x01, 0x05, 0x00]) 0 = .ret (some e, 3, none) ∧
      e.Tag = 16 ∧ e.Length = 1 ∧ e.Content = .children [some c] ∧
      e.Offset + 2 + e.Length < c.Offset + c.Bytes.length :=
  ⟨_, _, rfl, rfl, rfl, rfl, by decide⟩

/-- C11 (as amended). For an in-bounds short-form unit with tag number 16: a child that
ends past the end of the content window does not make `Parse` fail, the loop stops after
that child and `Parse` returns a nil error with that child as the last of the child list;
and `Parse` of the SEQUENCE returns an error only when the decode of one of its children
returned that error. -/
theorem seq_overshoot_accepted (octets : Buffer) (o : Nat) (idOctet lenOctet : Byte)
    (h0 : index octets o = some idOctet) (htag : idOctet.val % 32 = 16)
    (h1 : index octets (o + 1) = some lenOctet) (hshort : lenOctet.val < 128)
    (hb : o + 2 + lenOctet.val ≤ octets.len) :
    (∀ p cs child q, SeqReach octets lenOctet.val (o + 2) p cs →
      Parse octets p = .ret (child, q, none) → o + 2 + lenOctet.val < q →
      Parse octets o = .ret (some (header octets o idOctet lenOctet
        (.children (cs ++ [child]))), o + 2 + lenOctet.val, none)) ∧
    (∀ enc next e, Parse octets o = .ret (enc, next, some e) →
      ∃ p cs child q, SeqReach octets lenOctet.val (o + 2) p cs ∧
        Parse octets p = .ret (child, q, some e)) := by
  refine ⟨?_, fun enc next e h =>
    Parse_seq_err octets o idOctet lenOctet enc next e h0 htag h1 hshort h⟩
  intro p cs child q hreach hchild hq
  have hstop : q ≥ lenOctet.val := by omega
  rw [Parse_short octets o idOctet lenOctet h0 h1 hshort (Nat.le_trans hb octets.valid), htag, parseContent_seq,
    seqLoop_of_reach octets lenOctet.val (o + 2) p cs hreach,
    seqLoop_eq octets lenOctet.val p cs, hchild]
  simp only [hstop, if_true]

/-- C11 (as amended), at `30 01 05 00`, whose child overshoots the window, and at
`30 02 05 80`, whose child fails on its length octet. -/
theorem seq_overshoot_accepted_witness :
    Parse (Buffer.ofList [0x30, 0x01, 0x05, 0x00]) 0
      = .ret (some (header (Buffer.ofList [0x30, 0x01, 0x05, 0x00]) 0 0x30 0x01
          (.children ([] ++ [some (header (Buffer.ofList [0x30, 0x01, 0x05, 0x00]) 2 0x05 0x00
            (.str "<unsupported representation>"))]))), 0 + 2 + 1, none) ∧
    ∃ p cs child q, SeqReach (Buffer.ofList [0x30, 0x02, 0x05, 0x80]) 2 (0 + 2) p cs ∧
      Parse (Buffer.ofList [0x30, 0x02, 0x05, 0x80]) p = .ret (child, q,
        some (lengthError "indefinite length is not supported" 0x05 0x80 0 "universal" 5
          "NULL")) :=
  ⟨(seq_overshoot_accepted (Buffer.ofList [0x30, 0x01, 0x05, 0x00]) 0 0x30 0x01 rfl (by decide) rfl
      (by decide) (by decide)).1 2 [] _ 4 SeqReach.entry rfl (by decide),
    (seq_overshoot_accepted (Buffer.ofList [0x30, 0x02, 0x05, 0x80]) 0 0x30 0x02 rfl (by decide) rfl
      (by decide) (by decide)).2 _ 4 _ rfl⟩

/-- C12 (counterexample). On `1f 00`, whose identifier octet has all five low bits set,
`Parse` returns a decoded unit with `Tag` 31 and a nil error. -/
theorem tag31_example :
    ∃ e, Parse (Buffer.ofList [0x1F, 0x00]) 0 = .ret (some e, 2, none) ∧ e.Tag = 31 ∧
      e.TagName = "<unknown universal tag 31>" ∧
      e.Content = .str "<unsupported representation>" :=
  ⟨_, rfl, rfl, by decide, rfl⟩

/-- C12 (as amended). When the identifier octet has all five low bits set, the octet
after it is read as the length octet: with a short-form length and the content in
bounds `Parse` returns, with a nil error, a unit with `Tag` 31, `TagName`
`<unknown universal tag 31>` and `Content` `<unsupported representation>`; it returns an
error only if the high bit of the length octet is set. -/
theorem tag31_is_decoded (octets : Buffer) (o : Nat) (idOctet lenOctet : Byte)
    (h0 : index octets o = some idOctet) (htag : idOctet.val % 32 = 31)
    (h1 : index octets (o + 1) = some lenOctet) :
    (lenOctet.val < 128 → o + 2 + lenOctet.val ≤ octets.len →
      ∃ e, Parse octets o = .ret (some e, o + 2 + lenOctet.val, none) ∧ e.Tag = 31 ∧
        e.TagName = "<unknown universal tag 31>" ∧
        e.Content = .str "<unsupported representation>") ∧
    (∀ enc next m, Parse octets o = .ret (enc, next, some m) → 0x80 ≤ lenOctet.val) := by
  have h16 : idOctet.val % 32 ≠ 16 := by omega
  have h6 : idOctet.val % 32 ≠ 6 := by omega
  have h3 : idOctet.val % 32 ≠ 3 := by omega
  refine ⟨fun hshort hb => ⟨_, Parse_other_tag octets o idOctet lenOctet h0 h1 hshort (Nat.le_trans hb octets.valid)
    h16 h6 h3, htag, ?_, rfl⟩, fun enc next m h =>
      Parse_other_tag_err octets o idOctet lenOctet enc next m h0 h1 h16 h6 h3 h⟩
  show toUniversalTagName (idOctet.val % 32) = "<unknown universal tag 31>"
  rw [htag]
  decide

/-- C12 (as amended), at `ff 00` (a unit decoded with `Tag` 31) and at `ff 81 00` (an
error, from the length octet `0x81`). -/
theorem tag31_is_decoded_witness :
    (∃ e, Parse (Buffer.ofList [0xFF, 0x00]) 0 = .ret (some e, 0 + 2 + 0, none) ∧ e.Tag = 31 ∧
        e.TagName = "<unknown universal tag 31>" ∧
        e.Content = .str "<unsupported representation>") ∧
    (0x80 ≤ (0x81 : Byte).val) :=
  ⟨(tag31_is_decoded (Buffer.ofList [0xFF, 0x00]) 0 0xFF 0x00 rfl (by decide) rfl).1 (by decide)
      (by decide),
    (tag31_is_decoded (Buffer.ofList [0xFF, 0x81, 0x00]) 0 0xFF 0x81 rfl (by decide) rfl).2 none 1 _ rfl⟩

/-- C13. An in-bounds unit with a short-form length whose tag number is none of 3, 6
and 16 is decoded with a nil error, and its `Content` is the string
`<unsupported representation>` whatever its content octets are. -/
theorem other_tags_unsupported (octets : Buffer) (o : Nat) (idOctet lenOctet : Byte)
    (h0 : index octets o = some idOctet) (h1 : index octets (o + 1) = some lenOctet)
    (hshort : lenOctet.val < 128) (hb : o + 2 + lenOctet.val ≤ octets.len)
    (h3 : idOctet.val % 32 ≠ 3) (h6 : idOctet.val % 32 ≠ 6) (h16 : idOctet.val % 32 ≠ 16) :
    ∃ e, Parse octets o = .ret (some e, o + 2 + lenOctet.val, none) ∧
      e.Tag = idOctet.val % 32 ∧ e.Content = .str "<unsupported representation>" :=
  ⟨_, Parse_other_tag octets o idOctet lenOctet h0 h1 hshort (Nat.le_trans hb octets.valid) h16 h6 h3, rfl, rfl⟩

/-- C13, at the INTEGER `02 02 01 00` and, with other content octets, `02 02 ff 7f`. -/
theorem other_tags_unsupported_witness :
    (∃ e, Parse (Buffer.ofList [0x02, 0x02, 0x01, 0x00]) 0 = .ret (some e, 0 + 2 + 2, none) ∧
      e.Tag = 2 % 32 ∧ e.Content = .str "<unsupported representation>") ∧
    (∃ e, Parse (Buffer.ofList [0x02, 0x02, 0xFF, 0x7F]) 0 = .ret (some e, 0 + 2 + 2, none) ∧
      e.Tag = 2 % 32 ∧ e.Content = .str "<unsupported representation>") :=
  ⟨other_tags_unsupported (Buffer.ofList [0x02, 0x02, 0x01, 0x00]) 0 0x02 0x02 rfl rfl (by decide)
      (by decide) (by decide) (by decide) (by decide),
    other_tags_unsupported (Buffer.ofList [0x02, 0x02, 0xFF, 0x7F]) 0 0x02 0x02 rfl rfl (by decide)
      (by decide) (by decide) (by decide) (by decide)⟩

/-- C14. For the identifier octet `b` of a unit decoded without error, `Class` is
`b >> 6`, `PC` is `b >> 5 & 1` and `Tag` is `b & 0x1F`, so `Class ≤ 3`, `PC ≤ 1`,
`Tag ≤ 31` and `b = 64 * Class + 32 * PC + Tag`; `ClassName`, `PCName` and `TagName` are
the entries of `classNames`, `pcNamaes` and `tagNames` at these indices, `TagName` being
`<unknown universal tag 31>` when `Tag` is 31. -/
theorem identifier_fields (octets : Buffer) (o : Nat) (e : Encoding) (next : Nat)
    (h : Parse octets o = .ret (some e, next, none)) :
    ∃ b : Byte, index octets o = some b ∧
      e.Class = b.val >>> 6 ∧ e.PC = (b.val >>> 5) &&& 1 ∧ e.Tag = b.val &&& 0x1F ∧
      e.Class ≤ 3 ∧ e.PC ≤ 1 ∧ e.Tag ≤ 31 ∧
      b.val = 64 * e.Class + 32 * e.PC + e.Tag ∧
      classNames[e.Class]? = some e.ClassName ∧ pcNamaes[e.PC]? = some e.PCName ∧
      (e.Tag ≤ 30 → tagNames[e.Tag]? = some e.TagName) ∧
      (e.Tag = 31 → e.TagName = "<unknown universal tag 31>") := by
  obtain ⟨b, lenOctet, h0, -, hc⟩ := Parse_ret_inv octets o (some e) next none h
  rcases hc with ⟨-, -, -, m, hm⟩ | ⟨-, -, -, content, -, he⟩
  · cases hm
  · simp only [Option.some.injEq] at he
    subst he
    have hlt : b.val < 256 := b.isLt
    refine ⟨b, h0, (class_eq_div b).symm, (pc_eq_div_mod b).symm, (tag_eq_mod b).symm,
      ?_, ?_, ?_, ?_, classNames_at b, pcNamaes_at b, fun ht => tagNames_at b ht, ?_⟩
    · show b.val / 64 ≤ 3
      omega
    · show b.val / 32 % 2 ≤ 1
      omega
    · show b.val % 32 ≤ 31
      omega
    · show b.val = 64 * (b.val / 64) + 32 * (b.val / 32 % 2) + b.val % 32
      omega
    · intro ht
      show toUniversalTagName (b.val % 32) = "<unknown universal tag 31>"
      have ht2 : b.val % 32 = 31 := ht
      rw [ht2]
      decide

/-- C14, at the context-specific constructed unit `bf 00` (class 2, constructed, tag
31) read at offset 0. -/
theorem identifier_fields_witness :
    ∃ e, Parse (Buffer.ofList [0xBF, 0x00]) 0 = .ret (some e, 2, none) ∧
      ∃ b : Byte, index (Buffer.ofList [0xBF, 0x00]) 0 = some b ∧
        e.Class = b.val >>> 6 ∧ e.PC = (b.val >>> 5) &&& 1 ∧ e.Tag = b.val &&& 0x1F ∧
        e.Class ≤ 3 ∧ e.PC ≤ 1 ∧ e.Tag ≤ 31 ∧
        b.val = 64 * e.Class + 32 * e.PC + e.Tag ∧
        classNames[e.Class]? = some e.ClassName ∧ pcNamaes[e.PC]? = some e.PCName ∧
        (e.Tag ≤ 30 → tagNames[e.Tag]? = some e.TagName) ∧
        (e.Tag = 31 → e.TagName = "<unknown universal tag 31>") :=
  ⟨_, rfl, identifier_fields (Buffer.ofList [0xBF, 0x00]) 0 _ 2 rfl⟩

/-- C15. In a SEQUENCE decoded without error the child list is a non-empty list of
non-nil records, the first child has the `Offset` of the SEQUENCE plus 2, and each later
child has the `Offset` of the child before it plus the number of that child's `Bytes`;
so the offsets increase strictly along the list, without gap or overlap. -/
theorem seq_children_contiguous (octets : Buffer) (o : Nat) (e : Encoding) (next : Nat)
    (h : Parse octets o = .ret (some e, next, none)) (htag : e.Tag = 16) :
    ∃ l : List Encoding, e.Content = .children (l.map some) ∧ l ≠ [] ∧
      e.Offset = o ∧ (∀ c, l.head? = some c → c.Offset = e.Offset + 2) ∧
      (∀ i a b, l[i]? = some a → l[i + 1]? = some b →
        b.Offset = a.Offset + a.Bytes.length ∧ a.Offset < b.Offset) := by
  obtain ⟨idOctet, lenOctet, p, cs, child, q, -, -, -, he, hreach, hchild, -⟩ :=
    Parse_seq_ok octets o e next h htag
  obtain ⟨l, hcs, hcont, hcur, -, hlen⟩ := reach_inv octets lenOctet.val (o + 2) p cs hreach
  obtain ⟨c, hc, hoff, -, h2, -⟩ := Parse_ok_child octets p child q hchild
  have hall : Contiguous (o + 2) (l ++ [c]) :=
    (contiguous_concat (o + 2) l c).2 ⟨hcont, by omega⟩
  have hlen2 : ∀ d ∈ l ++ [c], 2 ≤ d.Bytes.length := by
    intro d hd
    rcases List.mem_append.1 hd with hd | hd
    · exact hlen d hd
    · simp only [List.mem_singleton] at hd
      subst hd; exact h2
  subst he
  refine ⟨l ++ [c], ?_, by simp, rfl, ?_, ?_⟩
  · simp [header, hcs, hc]
  · intro d hd
    exact contiguous_head (o + 2) (l ++ [c]) d hall hd
  · intro i a b ha hb
    have hstep := contiguous_getElem? (o + 2) (l ++ [c]) i a b hall ha hb
    have ha2 := hlen2 a (List.getElem?_mem ha)
    exact ⟨hstep, by omega⟩

/-- C15, at `30 06 05 00 05 00 05 00`, decoded to the two children at offsets 2 and 4. -/
theorem seq_children_contiguous_witness :
    ∃ e, Parse (Buffer.ofList [0x30, 0x06, 0x05, 0x00, 0x05, 0x00, 0x05, 0x00]) 0 = .ret (some e, 8, none) ∧
      (∃ c₁ c₂, e.Content = .children [some c₁, some c₂] ∧ c₁.Offset = 2 ∧ c₂.Offset = 4) ∧
      ∃ l : List Encoding, e.Content = .children (l.map some) ∧ l ≠ [] ∧
        e.Offset = 0 ∧ (∀ c, l.head? = some c → c.Offset = e.Offset + 2) ∧
        (∀ i a b, l[i]? = some a → l[i + 1]? = some b →
          b.Offset = a.Offset + a.Bytes.length ∧ a.Offset < b.Offset) :=
  ⟨_, rfl, ⟨_, _, rfl, rfl, rfl⟩,
    seq_children_contiguous (Buffer.ofList [0x30, 0x06, 0x05, 0x00, 0x05, 0x00, 0x05, 0x00]) 0 _ 8 rfl rfl⟩

/-- C16. `Parse` is total: for every buffer and start offset the fuel it supplies is
not exhausted and any larger fuel gives the same result, so each call returns or panics.
A unit decoded without error has its two header octets within the length of the buffer
and ends at least two octets after its start, within the capacity; every child of a
SEQUENCE at `o` is decoded at a cursor `p ≥ o + 2`, and every iteration of the child
loop leaves the cursor strictly larger than it found it, so `len(octets) - offset`
decreases along the recursion. -/
theorem Parse_terminates (octets : Buffer) (o : Nat) :
    Parse octets o ≠ .outOfFuel ∧
    (∀ f, 2 * (octets.len - o) + 1 ≤ f → ParseF f octets o = Parse octets o) ∧
    (∀ enc q, Parse octets o = .ret (enc, q, none) →
      o + 2 ≤ q ∧ o + 2 ≤ octets.len ∧ q ≤ octets.data.length) ∧
    (∀ length p cs, SeqReach octets length (o + 2) p cs →
      o + 2 ≤ p ∧ ∀ child q, Parse octets p = .ret (child, q, none) → p + 2 ≤ q) :=
  ⟨Parse_ne_outOfFuel octets o, fun f hf => Parse_eq_ParseF f octets o hf,
    fun enc q h => ParseF_ok_next _ octets o enc q h,
    fun length p cs hreach => ⟨reach_ge octets length (o + 2) p cs hreach,
      fun child q h => (ParseF_ok_next _ octets p child q h).1⟩⟩

/-- C17. In a SEQUENCE decoded without error the child list is non-empty; every child
but the last ended with the cursor below `Length` and the last one ended with the cursor
at or above `Length`, the cursor being the absolute offset in the buffer; and when
`Length ≤ o + 4` for the start offset `o`, the list has exactly one child. -/
theorem seq_loop_stops_at_length (octets : Buffer) (o : Nat) (e : Encoding) (next : Nat)
    (h : Parse octets o = .ret (some e, next, none)) (htag : e.Tag = 16) :
    ∃ l : List Encoding, e.Content = .children (l.map some) ∧ l ≠ [] ∧
      (∀ c ∈ l.dropLast, c.Offset + c.Bytes.length < e.Length) ∧
      (∀ c, l.getLast? = some c → e.Length ≤ c.Offset + c.Bytes.length) ∧
      (e.Length ≤ o + 4 → l.length = 1) := by
  obtain ⟨idOctet, lenOctet, p, cs, child, q, -, -, -, he, hreach, hchild, hq⟩ :=
    Parse_seq_ok octets o e next h htag
  obtain ⟨l, hcs, hcont, -, hlt, hlen⟩ := reach_inv octets lenOctet.val (o + 2) p cs hreach
  obtain ⟨c, hc, -, hend, -, -⟩ := Parse_ok_child octets p child q hchild
  subst he
  refine ⟨l ++ [c], ?_, by simp, ?_, ?_, ?_⟩
  · simp [header, hcs, hc]
  · intro d hd
    rw [List.dropLast_concat] at hd
    exact hlt d hd
  · intro d hd
    rw [List.getLast?_concat] at hd
    simp only [Option.some.injEq] at hd
    subst hd
    show lenOctet.val ≤ _
    omega
  · intro hL
    have hL2 : lenOctet.val ≤ o + 4 := hL
    cases l with
    | nil => rfl
    | cons a l =>
      have h1 := hcont.1
      have h2 := hlt a (List.mem_cons_self a l)
      have h3 := hlen a (List.mem_cons_self a l)
      omega

/-- C17, at `30 04 05 00 05 00` read at offset 0: a single child, `05 00` at offset 2. -/
theorem seq_loop_stops_at_length_witness :
    ∃ e, Parse (Buffer.ofList [0x30, 0x04, 0x05, 0x00, 0x05, 0x00]) 0 = .ret (some e, 6, none) ∧
      (∃ c, e.Content = .children [some c] ∧ c.Offset = 2 ∧ c.Bytes = [0x05, 0x00]) ∧
      ∃ l : List Encoding, e.Content = .children (l.map some) ∧ l ≠ [] ∧
        (∀ c ∈ l.dropLast, c.Offset + c.Bytes.length < e.Length) ∧
        (∀ c, l.getLast? = some c → e.Length ≤ c.Offset + c.Bytes.length) ∧
        (e.Length ≤ 0 + 4 → l.length = 1) :=
  ⟨_, rfl, ⟨_, rfl, rfl, rfl⟩,
    seq_loop_stops_at_length (Buffer.ofList [0x30, 0x04, 0x05, 0x00, 0x05, 0x00]) 0 _ 6 rfl rfl⟩

/-- C18. In a tree that `Parse` returns with a nil error, every node, the root and all
its descendants, has a `Content` that is a string or a list of non-nil children, `Class`
at most 3, `PC` at most 1, `IsShortFormLength` true and `Length` at most 127; so
`toClassName` and `toPCName` do not panic on its `Class` and `PC`, and `toString`
returns for it at every depth. -/
theorem decoded_tree_wellFormed (octets : Buffer) (o : Nat) (e : Encoding) (next : Nat)
    (h : Parse octets o = .ret (some e, next, none)) :
    ∀ n, InTree e n →
      ((∃ s, n.Content = .str s) ∨
        (∃ cs, n.Content = .children cs ∧ ∀ c ∈ cs, c ≠ none)) ∧
      n.Class ≤ 3 ∧ n.PC ≤ 1 ∧ n.IsShortFormLength = true ∧ n.Length ≤ 127 ∧
      toClassName n.Class ≠ none ∧ toPCName n.PC ≠ none ∧
      ∀ depth, Encoding.toString (some n) depth ≠ none := by
  intro n hn
  have hroot : WellFormed e := (wellFormed_fuel _).1 octets o e next h
  have hwf : WellFormed n := wellFormed_inTree e n hroot hn
  have hrender := wellFormed_renders n hwf
  have hnames : ∀ c p : Nat, c ≤ 3 → p ≤ 1 → toClassName c ≠ none ∧ toPCName p ≠ none := by
    intro c p hc hp
    have hc2 : c = 0 ∨ c = 1 ∨ c = 2 ∨ c = 3 := by omega
    have hp2 : p = 0 ∨ p = 1 := by omega
    rcases hc2 with rfl | rfl | rfl | rfl <;> rcases hp2 with rfl | rfl <;> decide
  cases hwf with
  | leaf _ s hs hc hp hsf hl =>
    exact ⟨Or.inl ⟨s, hs⟩, hc, hp, hsf, hl, (hnames _ _ hc hp).1, (hnames _ _ hc hp).2,
      fun depth => hrender depth⟩
  | node _ cs hcs hc hp hsf hl hne _ =>
    exact ⟨Or.inr ⟨cs, hcs, hne⟩, hc, hp, hsf, hl, (hnames _ _ hc hp).1,
      (hnames _ _ hc hp).2, fun depth => hrender depth⟩

/-- C18, at `30 04 05 00 05 00` read at offset 0, for the child of the SEQUENCE. -/
theorem decoded_tree_wellFormed_witness :
    ∃ e c, Parse (Buffer.ofList [0x30, 0x04, 0x05, 0x00, 0x05, 0x00]) 0 = .ret (some e, 6, none) ∧
      e.Content = .children [some c] ∧ InTree e c ∧
      ((∃ s, c.Content = .str s) ∨
        (∃ cs, c.Content = .children cs ∧ ∀ d ∈ cs, d ≠ none)) ∧
      c.Class ≤ 3 ∧ c.PC ≤ 1 ∧ c.IsShortFormLength = true ∧ c.Length ≤ 127 ∧
      toClassName c.Class ≠ none ∧ toPCName c.PC ≠ none ∧
      ∀ depth, Encoding.toString (some c) depth ≠ none :=
  ⟨_, _, rfl, rfl, InTree.child _ _ _ InTree.root rfl (List.mem_singleton.2 rfl),
    decoded_tree_wellFormed (Buffer.ofList [0x30, 0x04, 0x05, 0x00, 0x05, 0x00]) 0 _ 6 rfl _
      (InTree.child _ _ _ InTree.root rfl (List.mem_singleton.2 rfl))⟩

/-- C19. For a unit with tag number 3, a short-form length and its content in bounds,
`Parse` returns a unit with a nil error exactly when `Length ≥ 1` and the first content
octet, the padding count, is at most `8 * (Length - 1)`; otherwise (a `Length` of 0, or
a padding count above the number of expanded bits, which a count of 8 or more can be)
it panics on a slice out of range, and in no case does it return an error. -/
theorem bitString_fault_iff (octets : Buffer) (o : Nat) (idOctet lenOctet : Byte)
    (h0 : index octets o = some idOctet) (htag : idOctet.val % 32 = 3)
    (h1 : index octets (o + 1) = some lenOctet) (hshort : lenOctet.val < 128)
    (hb : o + 2 + lenOctet.val ≤ octets.len) :
    ((∃ e, Parse octets o = .ret (some e, o + 2 + lenOctet.val, none)) ↔
      (1 ≤ lenOctet.val ∧
        ∃ padding, index octets (o + 2) = some padding ∧
          padding.val ≤ 8 * (lenOctet.val - 1))) ∧
    (Parse octets o ≠ .fault ↔
      (1 ≤ lenOctet.val ∧
        ∃ padding, index octets (o + 2) = some padding ∧
          padding.val ≤ 8 * (lenOctet.val - 1))) ∧
    (∀ enc next m, Parse octets o ≠ .ret (enc, next, some m)) := by
  have hv := octets.valid
  have hP := Parse_short octets o idOctet lenOctet h0 h1 hshort (Nat.le_trans hb octets.valid)
  rw [htag, parseContent_bits] at hP
  by_cases hn : 1 ≤ lenOctet.val
  · have hlt : o + 2 < octets.len := by omega
    obtain ⟨pad, hp, -⟩ := index_of_lt octets (o + 2) hlt
    by_cases hpad : pad.val ≤ 8 * (lenOctet.val - 1)
    · rw [parseBitString_ok octets (o + 2) lenOctet.val _ hp hn (by omega) hpad] at hP
      refine ⟨⟨fun _ => ⟨hn, _, hp, hpad⟩, fun _ => ⟨_, hP⟩⟩,
        ⟨fun _ => ⟨hn, _, hp, hpad⟩, fun _ => by rw [hP]; simp⟩, ?_⟩
      intro enc next m
      rw [hP]; simp
    · rw [parseBitString_fault_padding octets (o + 2) lenOctet.val _ hp hn (by omega)
        (by omega)] at hP
      have hno : ¬ (1 ≤ lenOctet.val ∧ ∃ padding, index octets (o + 2) = some padding ∧
          padding.val ≤ 8 * (lenOctet.val - 1)) := by
        rintro ⟨-, padding, hp2, hpad2⟩
        rw [hp] at hp2
        simp only [Option.some.injEq] at hp2
        subst hp2
        exact hpad hpad2
      refine ⟨⟨fun ⟨e, he⟩ => (by rw [hP] at he; cases he), fun hc => absurd hc hno⟩,
        ⟨fun hne => absurd hP hne, fun hc => absurd hc hno⟩, ?_⟩
      intro enc next m
      rw [hP]; simp
  · have hz : lenOctet.val = 0 := by omega
    rw [hz, parseBitString_fault_empty] at hP
    have hno : ¬ (1 ≤ lenOctet.val ∧ ∃ padding, index octets (o + 2) = some padding ∧
        padding.val ≤ 8 * (lenOctet.val - 1)) := fun hc => hn hc.1
    refine ⟨⟨fun ⟨e, he⟩ => (by rw [hP] at he; cases he), fun hc => absurd hc hno⟩,
      ⟨fun hne => absurd hP hne, fun hc => absurd hc hno⟩, ?_⟩
    intro enc next m
    rw [hP]; simp

/-- C19, at `03 02 08 ff` (padding count 8 = 8 * (2 - 1): decoded, to the empty
string), at `03 02 09 ff` (padding count 9: panic) and at `03 00` (`Length` 0: panic). -/
theorem bitString_fault_iff_witness :
    (∃ e, Parse (Buffer.ofList [0x03, 0x02, 0x08, 0xFF]) 0 = .ret (some e, 0 + 2 + 2, none)) ∧
    Parse (Buffer.ofList [0x03, 0x02, 0x08, 0xFF]) 0
      = .ret (some (header (Buffer.ofList [0x03, 0x02, 0x08, 0xFF]) 0 0x03 0x02 (.str "")), 4, none) ∧
    Parse (Buffer.ofList [0x03, 0x02, 0x09, 0xFF]) 0 = .fault ∧
    ¬ (1 ≤ (0x02 : Byte).val ∧ ∃ padding, index (Buffer.ofList [0x03, 0x02, 0x09, 0xFF]) (0 + 2)
        = some padding ∧ padding.val ≤ 8 * ((0x02 : Byte).val - 1)) ∧
    Parse (Buffer.ofList [0x03, 0x00]) 0 = .fault ∧
    ¬ (1 ≤ (0x00 : Byte).val ∧ ∃ padding, index (Buffer.ofList [0x03, 0x00]) (0 + 2)
        = some padding ∧ padding.val ≤ 8 * ((0x00 : Byte).val - 1)) :=
  ⟨(bitString_fault_iff (Buffer.ofList [0x03, 0x02, 0x08, 0xFF]) 0 0x03 0x02 rfl (by decide) rfl (by decide)
      (by decide)).1.2 ⟨by decide, 0x08, rfl, by decide⟩,
    rfl, rfl,
    fun hc => ((bitString_fault_iff (Buffer.ofList [0x03, 0x02, 0x09, 0xFF]) 0 0x03 0x02 rfl (by decide) rfl
      (by decide) (by decide)).2.1.2 hc) rfl,
    rfl,
    fun hc => ((bitString_fault_iff (Buffer.ofList [0x03, 0x00]) 0 0x03 0x00 rfl (by decide) rfl
      (by decide) (by decide)).2.1.2 hc) rfl⟩

/-- C20. Let two buffers of the same length and capacity be identical except, at most,
for the top three bits of the octet at the start offset. Then `Parse` panics on both or on neither;
when it returns on one it returns on the other with the same next offset, an error on
both or on neither, and a nil `*Encoding` on both or on neither; and the two records
have the same `Tag`, `Length`, `ContentBytes`, `Content`, `Offset`, `TagName`,
`IsShortFormLength` and the same `Bytes` after the first, with the same error. Only
`Class`, `ClassName`, `PC`, `PCName` and the first of the `Bytes` can differ. -/
theorem content_selected_by_tag (octets₁ octets₂ : Buffer) (o : Nat)
    (hlen : octets₁.len = octets₂.len)
    (hcap : octets₁.data.length = octets₂.data.length)
    (hsame : ∀ i, i ≠ o → octets₁.data[i]? = octets₂.data[i]?)
    (hid : (index octets₁ o).map (fun b => b.val % 32)
      = (index octets₂ o).map (fun b => b.val % 32)) :
    (Parse octets₁ o = .fault ↔ Parse octets₂ o = .fault) ∧
    (∀ enc₁ n err₁, Parse octets₁ o = .ret (enc₁, n, err₁) →
      ∃ enc₂ err₂, Parse octets₂ o = .ret (enc₂, n, err₂) ∧
        (err₁ = none ↔ err₂ = none) ∧ (enc₁ = none ↔ enc₂ = none) ∧
        ∀ e₁, enc₁ = some e₁ → ∃ e₂, enc₂ = some e₂ ∧ err₂ = err₁ ∧
          e₂.Tag = e₁.Tag ∧ e₂.Length = e₁.Length ∧ e₂.ContentBytes = e₁.ContentBytes ∧
          e₂.Content = e₁.Content ∧ e₂.Offset = e₁.Offset ∧ e₂.TagName = e₁.TagName ∧
          e₂.IsShortFormLength = e₁.IsShortFormLength ∧
          e₂.Bytes.drop 1 = e₁.Bytes.drop 1) :=
  ⟨⟨(Parse_same_tag octets₁ octets₂ o hlen hcap hsame hid).1,
      (Parse_same_tag octets₂ octets₁ o hlen.symm hcap.symm (fun i hi => (hsame i hi).symm)
        hid.symm).1⟩,
    (Parse_same_tag octets₁ octets₂ o hlen hcap hsame hid).2⟩

/-- C20, at `30 02 05 00` (universal, constructed, tag 16) and `90 02 05 00`
(context-specific, primitive, tag 16): the second is expanded as a SEQUENCE too, with
the same child. -/
theorem content_selected_by_tag_witness :
    (∃ e₁ e₂ c, Parse (Buffer.ofList [0x30, 0x02, 0x05, 0x00]) 0 = .ret (some e₁, 4, none) ∧
      Parse (Buffer.ofList [0x90, 0x02, 0x05, 0x00]) 0 = .ret (some e₂, 4, none) ∧
      e₁.Content = .children [some c] ∧ e₂.Content = .children [some c] ∧
      e₁.Class = 0 ∧ e₂.Class = 2 ∧ e₁.PC = 1 ∧ e₂.PC = 0) ∧
    (Parse (Buffer.ofList [0x30, 0x02, 0x05, 0x00]) 0 = .fault ↔ Parse (Buffer.ofList [0x90, 0x02, 0x05, 0x00]) 0 = .fault) ∧
    (∀ enc₁ n err₁, Parse (Buffer.ofList [0x30, 0x02, 0x05, 0x00]) 0 = .ret (enc₁, n, err₁) →
      ∃ enc₂ err₂, Parse (Buffer.ofList [0x90, 0x02, 0x05, 0x00]) 0 = .ret (enc₂, n, err₂) ∧
        (err₁ = none ↔ err₂ = none) ∧ (enc₁ = none ↔ enc₂ = none) ∧
        ∀ e₁, enc₁ = some e₁ → ∃ e₂, enc₂ = some e₂ ∧ err₂ = err₁ ∧
          e₂.Tag = e₁.Tag ∧ e₂.Length = e₁.Length ∧ e₂.ContentBytes = e₁.ContentBytes ∧
          e₂.Content = e₁.Content ∧ e₂.Offset = e₁.Offset ∧ e₂.TagName = e₁.TagName ∧
          e₂.IsShortFormLength = e₁.IsShortFormLength ∧
          e₂.Bytes.drop 1 = e₁.Bytes.drop 1) :=
  ⟨⟨_, _, _, rfl, rfl, rfl, rfl, rfl, rfl, rfl, rfl⟩,
    content_selected_by_tag (Buffer.ofList [0x30, 0x02, 0x05, 0x00])
      (Buffer.ofList [0x90, 0x02, 0x05, 0x00]) 0 rfl rfl
      (fun i hi => match i, hi with
        | 0, h => absurd rfl h
        | _ + 1, _ => rfl)
      (by decide)⟩

end Asn1
